import Mathlib

/-!
Verification of the POCSAG encoder core (`src/app/pocsag.c`, `src/app/pocsag.h`).

Machine integers are modeled as `Nat`, with an explicit `% 2 ^ 32` at every
point where a C `uint32_t` computation could wrap.  C strings are modeled as
`List Nat` of their character codes (a C string never contains a NUL byte).
Output buffers written through advancing pointers are modeled as the lists of
values written, in order.
-/

namespace Pocsag

/-- Constant `SYNC` (pocsag.h line 20): the word starting every batch. -/
def SYNC : Nat := 0x7CD215D8

/-- Constant `IDLE` (pocsag.h line 25): padding / end-of-message word. -/
def IDLE : Nat := 0x7A89C197

/-- Constant `FRAME_SIZE` (pocsag.h line 28): one frame is a pair of words. -/
def FRAME_SIZE : Nat := 2

/-- Constant `BATCH_SIZE` (pocsag.h line 31): one batch is 16 words. -/
def BATCH_SIZE : Nat := 16

/-- Constant `PREAMBLE_LENGTH` (pocsag.h line 36): preamble length in bits. -/
def PREAMBLE_LENGTH : Nat := 576

/-- Constant `FLAG_MESSAGE` (pocsag.h line 42): data-word flag bit. -/
def FLAG_MESSAGE : Nat := 0x100000

/-- Constant `FLAG_TEXT_DATA` (pocsag.h line 47): text type flag of an address word. -/
def FLAG_TEXT_DATA : Nat := 0x3

/-- Constant `TEXT_BITS_PER_WORD` (pocsag.h line 55). -/
def TEXT_BITS_PER_WORD : Nat := 20

/-- Constant `TEXT_BITS_PER_CHAR` (pocsag.h line 58). -/
def TEXT_BITS_PER_CHAR : Nat := 7

/-- Constant `CRC_BITS` (pocsag.h line 61). -/
def CRC_BITS : Nat := 10

/-- Constant `CRC_GENERATOR` (pocsag.h line 64). -/
def CRC_GENERATOR : Nat := 0b11101101001

/-- Constant `SYMRATE` (pocsag.h line 66): internal symbol rate of the PCM stage. -/
def SYMRATE : Nat := 38400

/-- One iteration of the long-division loop of `crc` (pocsag.c lines 46-58).
The state is the pair `(msg, denominator)`; the loop counter is `column`.
`msgBit` is the bit of the column the loop is aligned to; when it is set the
denominator is subtracted (XOR), and the denominator is shifted right one
position either way. -/
def crcStep : Nat × Nat → Nat → Nat × Nat
  | (msg, denominator), column =>
    let msgBit := (msg >>> (30 - column)) &&& 1
    (if msgBit ≠ 0 then msg ^^^ denominator else msg, denominator >>> 1)

/-- The 21-column polynomial division of `crc` run on the 31-bit dividend `v`
(the value the C code holds in `msg` after the initial left shift), returning
the low 10 bits of the reduced value, exactly as `crc` does (pocsag.c lines
40, 46-58, 61).  `crc` instantiates `v = inputMsg << CRC_BITS`; claim C2 also
re-runs the same division on `(m << 10) | crc m`. -/
def crcRemainder (v : Nat) : Nat :=
  ((List.range 21).foldl crcStep (v % 2 ^ 32, CRC_GENERATOR <<< 20)).1 &&& 0x3FF

/-- Function `crc` (pocsag.c lines 38-62). -/
def crc (inputMsg : Nat) : Nat :=
  crcRemainder (inputMsg <<< CRC_BITS)

/-- The loop of `parity` (pocsag.c lines 72-75): `p` is the accumulator, the
last argument counts the remaining iterations (32 at the start). -/
def parityLoop : Nat → Nat → Nat → Nat
  | p, _, 0 => p
  | p, x, n + 1 => parityLoop (p ^^^ (x &&& 1)) (x >>> 1) n

/-- Function `parity` (pocsag.c lines 64-77). -/
def parity (x : Nat) : Nat := parityLoop 0 x 32

/-- Function `encodeCodeword` (pocsag.c lines 79-83). -/
def encodeCodeword (msg : Nat) : Nat :=
  let fullCRC := ((msg <<< CRC_BITS) % 2 ^ 32) ||| crc msg
  let p := parity fullCRC
  ((fullCRC <<< 1) % 2 ^ 32) ||| p

/-- The mutable locals of `encodeASCII` (pocsag.c lines 87-96) together with
the words written through the output pointer so far, in order. -/
structure AsciiState where
  out : List Nat
  currentWord : Nat
  currentNumBits : Nat
  wordPosition : Nat

/-- One iteration of the inner bit loop of `encodeASCII` (pocsag.c lines
102-124): shift bit `b` into the accumulator; when `TEXT_BITS_PER_WORD` bits
have gathered, emit a data codeword (with `FLAG_MESSAGE` set), and a `SYNC`
word as well when the batch position reaches `BATCH_SIZE`. -/
def pushBit (s : AsciiState) (b : Nat) : AsciiState :=
  let currentWord := ((s.currentWord <<< 1) % 2 ^ 32) ||| b
  let currentNumBits := s.currentNumBits + 1
  if currentNumBits = TEXT_BITS_PER_WORD then
    let w := encodeCodeword (currentWord ||| FLAG_MESSAGE)
    let wordPosition := s.wordPosition + 1
    if wordPosition = BATCH_SIZE then
      ⟨s.out ++ [w, SYNC], 0, 0, 0⟩
    else
      ⟨s.out ++ [w], 0, 0, wordPosition⟩
  else
    ⟨s.out, currentWord, currentNumBits, s.wordPosition⟩

/-- Per-character processing of `encodeASCII` (pocsag.c lines 98-125): the
7 bits of character `c` are pushed least-significant first. -/
def pushChar (s : AsciiState) (c : Nat) : AsciiState :=
  (List.range TEXT_BITS_PER_CHAR).foldl (fun t i => pushBit t ((c >>> i) &&& 1)) s

/-- The tail of `encodeASCII` (pocsag.c lines 127-143): when 1..19 bits
remain they are left-shifted into a zero-padded 20-bit word and emitted with
the same batch bookkeeping.  The accumulator fields are dead afterwards but
are kept exactly as the C code leaves them. -/
def flushRemainder (s : AsciiState) : AsciiState :=
  if s.currentNumBits > 0 then
    let currentWord := (s.currentWord <<< (20 - s.currentNumBits)) % 2 ^ 32
    let w := encodeCodeword (currentWord ||| FLAG_MESSAGE)
    let wordPosition := s.wordPosition + 1
    if wordPosition = BATCH_SIZE then
      ⟨s.out ++ [w, SYNC], currentWord, s.currentNumBits, 0⟩
    else
      ⟨s.out ++ [w], currentWord, s.currentNumBits, wordPosition⟩
  else s

/-- Function `encodeASCII` (pocsag.c lines 85-146), over the list of
character codes of the C string (a C string contains no NUL, so the list is
exactly the characters the `while (*str != 0)` loop visits).  The returned
list is the sequence of words written through `out`; the C return value
`numWordsWritten` is its length. -/
def encodeASCII (initial_offset : Nat) (str : List Nat) : List Nat :=
  (flushRemainder (str.foldl pushChar ⟨[], 0, 0, initial_offset⟩)).out

/-- Function `addressOffset` (pocsag.c lines 148-150). -/
def addressOffset (address : Nat) : Nat :=
  (address &&& 0x7) * FRAME_SIZE

/-- Function `encodeTransmission` (pocsag.c lines 152-199).  The returned
list is the full sequence of words written through `out`: the 18-word
preamble, then (from the `start` pointer) one SYNC, the leading idle words, the
address codeword, the packed message, the terminating IDLE, and the final
idle padding computed from `written = out - start`.  (For the claims'
domain `address < 2^21` the C `int` arithmetic never wraps, so plain `Nat`
arithmetic is exact.) -/
def encodeTransmission (address : Nat) (message : List Nat) : List Nat :=
  let preamble := List.replicate (PREAMBLE_LENGTH / 32) 0xAAAAAAAA
  let body :=
    [SYNC]
    ++ List.replicate (addressOffset address) IDLE
    ++ [encodeCodeword (((address >>> 3) <<< 2) ||| FLAG_TEXT_DATA)]
    ++ encodeASCII (addressOffset address + 1) message
    ++ [IDLE]
  let written := body.length
  let padding := (BATCH_SIZE + 1) - written % (BATCH_SIZE + 1)
  preamble ++ body ++ List.replicate padding IDLE

/-- Function `textMessageLength` (pocsag.c lines 201-230); the intermediate
values `n1`..`n6` are the successive values of the C local `numWords`. -/
def textMessageLength (address : Nat) (numChars : Nat) : Nat :=
  let n1 := addressOffset address
  let n2 := n1 + 1
  let n3 := n2 + (numChars * TEXT_BITS_PER_CHAR + (TEXT_BITS_PER_WORD - 1)) / TEXT_BITS_PER_WORD
  let n4 := n3 + 1
  let n5 := n4 + (BATCH_SIZE - n4 % BATCH_SIZE)
  let n6 := n5 + n5 / BATCH_SIZE
  n6 + PREAMBLE_LENGTH / 32

/-- Sample amplitude for one bit (pocsag.c lines 268-274): `32767 / 2` for a
0 bit and `-32767 / 2` for a 1 bit, with C integer division truncating
toward zero, i.e. `16383` and `-16383`. -/
def sampleLevel (bit : Nat) : Int :=
  if bit = 0 then 16383 else -16383

/-- The samples one codeword `val` contributes to the intermediate buffer
(pocsag.c lines 265-281): its 32 bits most-significant first, each repeated
`repeatsPerBit` times. -/
def wordSamples (repeatsPerBit : Nat) (val : Nat) : List Int :=
  (List.range 32).flatMap (fun bitNum =>
    List.replicate repeatsPerBit (sampleLevel ((val >>> (31 - bitNum)) &&& 1)))

/-- The whole intermediate buffer `samples` (pocsag.c lines 252-282). -/
def transmissionSamples (transmission : List Nat) (repeatsPerBit : Nat) : List Int :=
  transmission.flatMap (wordSamples repeatsPerBit)

/-- Function `pcmTransmissionLength` (pocsag.c lines 232-239); C evaluation
order is `((transmissionLength * 32) * sampleRate / baudRate) * 2`. -/
def pcmTransmissionLength (sampleRate baudRate transmissionLength : Nat) : Nat :=
  transmissionLength * 32 * sampleRate / baudRate * 2

/-- The 16-bit two's-complement encoding of an `int16_t` sample value. -/
def toU16 (s : Int) : Nat := (s % 65536).toNat

/-- The two bytes the resampling loop writes for one output sample
(pocsag.c lines 291-293): `inSample & 0xFF` then `(inSample >> 8) & 0xFF`,
which for an `int16_t` are the low and the high byte of its 16-bit
two's-complement encoding. -/
def sampleBytes (s : Int) : List Nat := [toU16 s % 256, toU16 s / 256 % 256]

/-- Function `pcmEncodeTransmission` (pocsag.c lines 241-298) as the list of
bytes written to `out`.  The C loop steps the byte index `i` by 2 while
`i < outputSize` (`outputSize` is always even), writing the two bytes of
output sample `i / 2`; here `j = i / 2` enumerates the output samples
directly.  A read of the intermediate buffer beyond its end (possible when
`baudRate` does not divide `SYMRATE`, see claim C9) is modeled by `getD`
with default 0. -/
def pcmEncodeTransmission (sampleRate baudRate : Nat) (transmission : List Nat) : List Nat :=
  let repeatsPerBit := SYMRATE / baudRate
  let samples := transmissionSamples transmission repeatsPerBit
  let outputSize := pcmTransmissionLength sampleRate baudRate transmission.length
  (List.range (outputSize / 2)).flatMap (fun j =>
    sampleBytes (samples.getD (j * SYMRATE / sampleRate) 0))

/-- The words of a transmission counted from the first word after the
18-word preamble, i.e. from the first SYNC. -/
def streamWords (address : Nat) (message : List Nat) : List Nat :=
  (encodeTransmission address message).drop (PREAMBLE_LENGTH / 32)

/-- The address codeword of `encodeTransmission` (pocsag.c line 180). -/
def addrWord (address : Nat) : Nat :=
  encodeCodeword (((address >>> 3) <<< 2) ||| FLAG_TEXT_DATA)

/-- The 20 payload bits (bits 30 down to 11) of a codeword, most significant
first. -/
def payloadBits (w : Nat) : List Nat :=
  (List.range 20).map (fun j => (w >>> (30 - j)) &&& 1)

/-- A word of the stream carries text data iff its type flag (bit 31) is
set; SYNC, IDLE and address codewords have bit 31 clear. -/
def isDataWord (w : Nat) : Bool := decide (2 ^ 31 ≤ w)

/-- Concatenated payload bits of the data codewords of a word sequence, in
order, skipping non-data (SYNC / IDLE / address) words. -/
def dataPayloadBits (ws : List Nat) : List Nat :=
  (ws.filter isDataWord).flatMap payloadBits

/-- The bit stream the text packer consumes: each character contributes its
7 bits least-significant first (pocsag.c lines 102-104). -/
def charBits (c : Nat) : List Nat :=
  (List.range TEXT_BITS_PER_CHAR).map (fun i => (c >>> i) &&& 1)

/-- All bits of a message, in the order the text packer pushes them. -/
def msgBits (str : List Nat) : List Nat := str.flatMap charBits

/-- The bits of the part-filled accumulator `currentWord`, most
significant first (proof-side description of the packer state). -/
def pendingBits (cw nb : Nat) : List Nat :=
  (List.range nb).map (fun j => (cw >>> (nb - 1 - j)) &&& 1)

/-- Test-only decoder primitive: the character value of 7 transmitted bits,
least-significant bit first (reversing the packer's bit order). -/
def charOfBits (l : List Nat) : Nat := l.foldr (fun b acc => acc * 2 + b) 0

/-- Test-only decoder: reads `n` characters out of the transmitted payload
bit stream. -/
def decodeText (bits : List Nat) (n : Nat) : List Nat :=
  (List.range n).map (fun k => charOfBits ((bits.drop (7 * k)).take 7))

/-- Abbreviation for the data codeword `pushBit` emits when the accumulator
`cw` fills up with final bit `b` (pocsag.c line 108). -/
def emittedWord (cw b : Nat) : Nat :=
  encodeCodeword ((((cw <<< 1) % 2 ^ 32) ||| b) ||| FLAG_MESSAGE)

/-- Abbreviation for the data codeword `flushRemainder` emits from `nb`
leftover accumulator bits (pocsag.c lines 129-130). -/
def flushWord (cw nb : Nat) : Nat :=
  encodeCodeword (((cw <<< (20 - nb)) % 2 ^ 32) ||| FLAG_MESSAGE)

/-! ### Bitwise bridging lemmas -/

theorem shiftLeft_or_small {b k : Nat} (a : Nat) (h : b < 2 ^ k) :
    (a <<< k) ||| b = a * 2 ^ k + b := by
  rw [Nat.shiftLeft_eq, Nat.mul_comm, ← Nat.mul_add_lt_is_or h a, Nat.mul_comm]

theorem shiftLeft_xor_small {b k : Nat} (a : Nat) (h : b < 2 ^ k) :
    (a <<< k) ^^^ b = a * 2 ^ k + b := by
  rw [← shiftLeft_or_small a h]
  apply Nat.eq_of_testBit_eq
  intro i
  rw [Nat.testBit_xor, Nat.testBit_or, Nat.testBit_shiftLeft]
  by_cases hik : i < k
  · have hk : ¬ (i ≥ k) := by omega
    simp [hk]
  · have hb : b.testBit i = false := by
      apply Nat.testBit_lt_two_pow
      exact lt_of_lt_of_le h (Nat.pow_le_pow_right (by norm_num) (by omega))
    simp [hb]

theorem and_mask_ten (x : Nat) : x &&& 0x3FF = x % 2 ^ 10 := by
  have h : (0x3FF : Nat) = 2 ^ 10 - 1 := by norm_num
  rw [h, Nat.and_pow_two_sub_one_eq_mod]

theorem shiftRight_shiftRight (x a b : Nat) : (x >>> a) >>> b = x >>> (a + b) := by
  simp [Nat.shiftRight_eq_div_pow, Nat.div_div_eq_div_mul, Nat.pow_add]

/-! ### CRC properties (claim C2) -/

theorem crc_lt (m : Nat) : crc m < 2 ^ 10 := by
  rw [crc, crcRemainder, and_mask_ten]
  exact Nat.mod_lt _ (by norm_num)

/-- The division loop ignores XOR-perturbations of the dividend confined to
the low 10 bits: those bits are never tested (columns test bits 30 down to
10) and ride along additively (in the XOR sense) to the end. -/
theorem crcFold_xor (cs : List Nat) (hcs : ∀ c ∈ cs, c ≤ 20) (r : Nat)
    (hr : r < 2 ^ 10) (msg den : Nat) :
    cs.foldl crcStep (msg ^^^ r, den) =
      ((cs.foldl crcStep (msg, den)).1 ^^^ r, (cs.foldl crcStep (msg, den)).2) := by
  induction cs generalizing msg den with
  | nil => simp
  | cons c cs ih =>
    have hc : c ≤ 20 := hcs c (List.mem_cons_self c cs)
    have hcs' : ∀ x ∈ cs, x ≤ 20 := fun x hx => hcs x (List.mem_cons_of_mem c hx)
    have hshift : r >>> (30 - c) = 0 := by
      rw [Nat.shiftRight_eq_div_pow]
      apply Nat.div_eq_of_lt
      exact lt_of_lt_of_le hr (Nat.pow_le_pow_right (by norm_num) (by omega))
    have hbit : ((msg ^^^ r) >>> (30 - c)) &&& 1 = (msg >>> (30 - c)) &&& 1 := by
      have hx : (msg ^^^ r) >>> (30 - c) = (msg >>> (30 - c)) ^^^ (r >>> (30 - c)) := by
        apply Nat.eq_of_testBit_eq
        intro i
        simp [Nat.testBit_shiftRight, Nat.testBit_xor]
      rw [hx, hshift, Nat.xor_zero]
    have hstep : crcStep (msg ^^^ r, den) c =
        ((crcStep (msg, den) c).1 ^^^ r, den >>> 1) := by
      simp only [crcStep, hbit]
      by_cases hb : (msg >>> (30 - c)) &&& 1 ≠ 0
      · simp only [if_pos hb]
        have hx : msg ^^^ r ^^^ den = msg ^^^ den ^^^ r := by
          rw [Nat.xor_assoc, Nat.xor_assoc, Nat.xor_comm r den]
        rw [hx]
      · simp only [if_neg hb]
    rw [List.foldl_cons, List.foldl_cons, hstep]
    have h2 : (crcStep (msg, den) c).2 = den >>> 1 := rfl
    rw [← h2]
    have := ih hcs' (crcStep (msg, den) c).1 (crcStep (msg, den) c).2
    rw [this]

/-- Re-running the division on `(m << 10) | crc m` gives remainder zero. -/
theorem crcRemainder_append_zero {m : Nat} (hm : m < 2 ^ 21) :
    crcRemainder ((m <<< CRC_BITS) ||| crc m) = 0 := by
  have hCB : CRC_BITS = 10 := rfl
  have hc : crc m < 2 ^ 10 := crc_lt m
  have hsh : m <<< CRC_BITS = m * 2 ^ 10 := by rw [hCB, Nat.shiftLeft_eq]
  have hm10 : m * 2 ^ 10 < 2 ^ 31 := by
    calc m * 2 ^ 10 < 2 ^ 21 * 2 ^ 10 :=
          mul_lt_mul_of_pos_right hm (by norm_num)
      _ = 2 ^ 31 := by norm_num
  have hor : (m <<< CRC_BITS) ||| crc m = (m <<< CRC_BITS) ^^^ crc m := by
    rw [hCB, shiftLeft_or_small m hc, shiftLeft_xor_small m hc]
  have hlt : (m <<< CRC_BITS) ^^^ crc m < 2 ^ 32 := by
    rw [hCB, shiftLeft_xor_small m hc]
    have h31 : (2 : Nat) ^ 31 + 2 ^ 10 < 2 ^ 32 := by norm_num
    omega
  have hvred : (m <<< CRC_BITS) % 2 ^ 32 = m <<< CRC_BITS := by
    apply Nat.mod_eq_of_lt
    rw [hsh]
    have h31 : (2 : Nat) ^ 31 < 2 ^ 32 := by norm_num
    omega
  have hrange : ∀ c ∈ List.range 21, c ≤ 20 := by
    intro c hcmem
    have := List.mem_range.mp hcmem
    omega
  rw [crcRemainder, hor, Nat.mod_eq_of_lt hlt]
  rw [crcFold_xor (List.range 21) hrange (crc m) hc]
  dsimp only
  have hcm : crc m &&& 0x3FF = crc m := by
    rw [and_mask_ten]
    exact Nat.mod_eq_of_lt hc
  have hcrc_def : crc m =
      ((List.range 21).foldl crcStep (m <<< CRC_BITS, CRC_GENERATOR <<< 20)).1 &&& 0x3FF := by
    rw [crc, crcRemainder, hvred]
  rw [Nat.and_xor_distrib_right, ← hcrc_def, hcm, Nat.xor_self]

/-! ### Parity properties -/

theorem parityLoop_acc (n : Nat) : ∀ p x, parityLoop p x n = p ^^^ parityLoop 0 x n := by
  induction n with
  | zero => intro p x; simp [parityLoop]
  | succ n ih =>
    intro p x
    rw [parityLoop, parityLoop, ih (p ^^^ (x &&& 1)), ih (0 ^^^ (x &&& 1))]
    rw [Nat.zero_xor, Nat.xor_assoc]

theorem parityLoop_peel (n : Nat) :
    ∀ p x, parityLoop p x (n + 1) = parityLoop p x n ^^^ ((x >>> n) &&& 1) := by
  induction n with
  | zero =>
    intro p x
    simp [parityLoop]
  | succ n ih =>
    intro p x
    show parityLoop (p ^^^ (x &&& 1)) (x >>> 1) (n + 1) =
      parityLoop (p ^^^ (x &&& 1)) (x >>> 1) n ^^^ ((x >>> (n + 1)) &&& 1)
    rw [ih, shiftRight_shiftRight, Nat.add_comm 1 n]

theorem parity_lt_two (x : Nat) : parity x < 2 := by
  have h : ∀ n p x, p < 2 → parityLoop p x n < 2 := by
    intro n
    induction n with
    | zero => intro p x hp; simpa [parityLoop] using hp
    | succ n ih =>
      intro p x hp
      rw [parityLoop]
      apply ih
      have hb : x &&& 1 < 2 := by
        rw [Nat.and_one_is_mod]
        omega
      interval_cases p <;> interval_cases hx : (x &&& 1) <;> simp
  exact h 32 0 x (by norm_num)

theorem parityLoop_succ (p x n : Nat) :
    parityLoop p x (n + 1) = parityLoop (p ^^^ (x &&& 1)) (x >>> 1) n := rfl

/-- Appending the even-parity bit of a 31-bit value makes total parity zero. -/
theorem parity_append_zero {f : Nat} (hf : f < 2 ^ 31) :
    parity ((f <<< 1) ||| parity f) = 0 := by
  have hp : parity f < 2 := parity_lt_two f
  have hp1 : parity f < 2 ^ 1 := by simpa using hp
  have h1 : (f <<< 1) ||| parity f = f * 2 + parity f := by
    have := shiftLeft_or_small (k := 1) f hp1
    simpa using this
  rw [h1]
  have hand : (f * 2 + parity f) &&& 1 = parity f := by
    rw [Nat.and_one_is_mod]
    omega
  have hshift : (f * 2 + parity f) >>> 1 = f := by
    rw [Nat.shiftRight_eq_div_pow, pow_one]
    omega
  show parityLoop 0 (f * 2 + parity f) 32 = 0
  rw [show (32 : Nat) = 31 + 1 from rfl, parityLoop_succ, Nat.zero_xor, hand, hshift]
  rw [parityLoop_acc]
  have h31 : parityLoop 0 f 32 = parityLoop 0 f 31 := by
    rw [parityLoop_peel 31]
    have hz : f >>> 31 = 0 := by
      rw [Nat.shiftRight_eq_div_pow]
      exact Nat.div_eq_of_lt hf
    rw [hz]
    simp
  have h31x : parityLoop 0 f 31 = parity f := by
    rw [parity, h31]
  rw [h31x, Nat.xor_self]

/-! ### Codeword decomposition -/

theorem encodeCodeword_eq {m : Nat} (hm : m < 2 ^ 21) :
    encodeCodeword m =
      (m * 2 ^ 10 + crc m) * 2 + parity (m * 2 ^ 10 + crc m) := by
  have hc : crc m < 2 ^ 10 := crc_lt m
  have hm10 : m * 2 ^ 10 < 2 ^ 31 := by
    calc m * 2 ^ 10 < 2 ^ 21 * 2 ^ 10 := mul_lt_mul_of_pos_right hm (by norm_num)
      _ = 2 ^ 31 := by norm_num
  have hmod : (m <<< CRC_BITS) % 2 ^ 32 = m * 2 ^ 10 := by
    rw [Nat.shiftLeft_eq]
    show m * 2 ^ 10 % 2 ^ 32 = m * 2 ^ 10
    apply Nat.mod_eq_of_lt
    omega
  rw [encodeCodeword]
  simp only [hmod]
  have hful : m * 2 ^ 10 ||| crc m = m * 2 ^ 10 + crc m := by
    have := shiftLeft_or_small (k := 10) m hc
    rwa [Nat.shiftLeft_eq] at this
  rw [hful]
  set f := m * 2 ^ 10 + crc m with hfdef
  have hflt : f < 2 ^ 31 := by omega
  have hp : parity f < 2 := parity_lt_two f
  have hmod2 : (f <<< 1) % 2 ^ 32 = f * 2 := by
    rw [Nat.shiftLeft_eq]
    show f * 2 ^ 1 % 2 ^ 32 = f * 2
    have : f * 2 ^ 1 = f * 2 := by ring
    rw [this]
    apply Nat.mod_eq_of_lt
    omega
  rw [hmod2]
  have := shiftLeft_or_small (k := 1) f (show parity f < 2 ^ 1 by omega)
  rw [Nat.shiftLeft_eq] at this
  calc f * 2 ||| parity f = f * 2 ^ 1 ||| parity f := by norm_num
    _ = f * 2 ^ 1 + parity f := this
    _ = f * 2 + parity f := by ring_nf

/-- C2: for every 21-bit payload `m`, `crc m` lies in `[0, 1023]` and running
the generator-polynomial division on `(m << 10) | crc m` yields remainder
zero; `encodeCodeword m` decomposes as bits `[31:11]` = `m`, bits `[10:1]` =
`crc m`, and bit 0 equal to the even-parity bit of bits `[31:1]`, so the
complete 32-bit codeword has even parity. -/
theorem c2_codeword_correct {m : Nat} (hm : m < 2 ^ 21) :
    crc m ≤ 1023 ∧
    crcRemainder ((m <<< CRC_BITS) ||| crc m) = 0 ∧
    encodeCodeword m >>> 11 = m ∧
    (encodeCodeword m >>> 1) &&& 0x3FF = crc m ∧
    encodeCodeword m &&& 1 = parity (encodeCodeword m >>> 1) ∧
    parity (encodeCodeword m) = 0 := by
  have hc : crc m < 2 ^ 10 := crc_lt m
  have he : encodeCodeword m = (m * 2 ^ 10 + crc m) * 2 + parity (m * 2 ^ 10 + crc m) :=
    encodeCodeword_eq hm
  have hp : parity (m * 2 ^ 10 + crc m) < 2 := parity_lt_two _
  have hf31 : m * 2 ^ 10 + crc m < 2 ^ 31 := by omega
  have hshift1 : encodeCodeword m >>> 1 = m * 2 ^ 10 + crc m := by
    rw [he, Nat.shiftRight_eq_div_pow, pow_one]
    omega
  refine ⟨by omega, crcRemainder_append_zero hm, ?_, ?_, ?_, ?_⟩
  · rw [he, Nat.shiftRight_eq_div_pow]
    omega
  · rw [hshift1, and_mask_ten]
    omega
  · rw [hshift1, he, Nat.and_one_is_mod]
    omega
  · have hp1 : parity (m * 2 ^ 10 + crc m) < 2 ^ 1 := by simpa using hp
    have hor : encodeCodeword m =
        ((m * 2 ^ 10 + crc m) <<< 1) ||| parity (m * 2 ^ 10 + crc m) := by
      rw [he, shiftLeft_or_small _ hp1, pow_one]
    rw [hor]
    exact parity_append_zero hf31

/-- Witness for C2 at the concrete 21-bit payload 1000000. -/
theorem c2_witness :
    1000000 < 2 ^ 21 ∧
    (crc 1000000 ≤ 1023 ∧
     crcRemainder ((1000000 <<< CRC_BITS) ||| crc 1000000) = 0 ∧
     encodeCodeword 1000000 >>> 11 = 1000000 ∧
     (encodeCodeword 1000000 >>> 1) &&& 0x3FF = crc 1000000 ∧
     encodeCodeword 1000000 &&& 1 = parity (encodeCodeword 1000000 >>> 1) ∧
     parity (encodeCodeword 1000000) = 0) :=
  ⟨by norm_num, c2_codeword_correct (by norm_num)⟩

/-! ### Text packer: transition equations -/

theorem pushBit_stay (s : AsciiState) (b : Nat) (h20 : s.currentNumBits + 1 ≠ 20) :
    pushBit s b =
      ⟨s.out, ((s.currentWord <<< 1) % 2 ^ 32) ||| b, s.currentNumBits + 1,
        s.wordPosition⟩ := by
  simp only [pushBit, TEXT_BITS_PER_WORD]
  rw [if_neg h20]

theorem pushBit_emit (s : AsciiState) (b : Nat) (h20 : s.currentNumBits + 1 = 20)
    (h16 : s.wordPosition + 1 ≠ 16) :
    pushBit s b =
      ⟨s.out ++ [emittedWord s.currentWord b], 0, 0, s.wordPosition + 1⟩ := by
  simp only [pushBit, TEXT_BITS_PER_WORD, BATCH_SIZE, emittedWord]
  rw [if_pos h20, if_neg h16]

theorem pushBit_syncEmit (s : AsciiState) (b : Nat) (h20 : s.currentNumBits + 1 = 20)
    (h16 : s.wordPosition + 1 = 16) :
    pushBit s b =
      ⟨s.out ++ [emittedWord s.currentWord b, SYNC], 0, 0, 0⟩ := by
  simp only [pushBit, TEXT_BITS_PER_WORD, BATCH_SIZE, emittedWord]
  rw [if_pos h20, if_pos h16]

theorem flushRemainder_zero (s : AsciiState) (h : s.currentNumBits = 0) :
    flushRemainder s = s := by
  simp [flushRemainder, h]

theorem flushRemainder_emit (s : AsciiState) (h : s.currentNumBits > 0)
    (h16 : s.wordPosition + 1 ≠ 16) :
    flushRemainder s =
      ⟨s.out ++ [flushWord s.currentWord s.currentNumBits],
        (s.currentWord <<< (20 - s.currentNumBits)) % 2 ^ 32, s.currentNumBits,
        s.wordPosition + 1⟩ := by
  simp only [flushRemainder, BATCH_SIZE, flushWord]
  rw [if_pos h, if_neg h16]

theorem flushRemainder_syncEmit (s : AsciiState) (h : s.currentNumBits > 0)
    (h16 : s.wordPosition + 1 = 16) :
    flushRemainder s =
      ⟨s.out ++ [flushWord s.currentWord s.currentNumBits, SYNC],
        (s.currentWord <<< (20 - s.currentNumBits)) % 2 ^ 32, s.currentNumBits, 0⟩ := by
  simp only [flushRemainder, BATCH_SIZE, flushWord]
  rw [if_pos h, if_pos h16]

theorem pushChar_eq (s : AsciiState) (c : Nat) :
    pushChar s c = (charBits c).foldl pushBit s := by
  rw [pushChar, charBits, List.foldl_map]

theorem foldl_pushChar_eq (str : List Nat) :
    ∀ s : AsciiState, str.foldl pushChar s = (msgBits str).foldl pushBit s := by
  induction str with
  | nil => intro s; rfl
  | cons c t ih =>
    intro s
    rw [List.foldl_cons, msgBits, List.flatMap_cons, List.foldl_append, pushChar_eq]
    exact ih _

theorem charBits_length (c : Nat) : (charBits c).length = 7 := by
  simp [charBits, TEXT_BITS_PER_CHAR]

theorem msgBits_length (str : List Nat) : (msgBits str).length = 7 * str.length := by
  induction str with
  | nil => rfl
  | cons c t ih =>
    rw [msgBits, List.flatMap_cons, List.length_append, ← msgBits, ih, charBits_length,
      List.length_cons]
    ring

/-! ### Text packer: word-count bookkeeping -/

/-- Running the bit loop from a state with `nb < 20` accumulator bits and
batch position `wp < 16` over any list of bits completes `(nb + B) / 20`
data words and inserts one SYNC per 16 completed batch positions. -/
theorem foldl_pushBit_spec (bs : List Nat) :
    ∀ s : AsciiState, s.currentNumBits < 20 → s.wordPosition < 16 →
      (bs.foldl pushBit s).out.length
          = s.out.length + (s.currentNumBits + bs.length) / 20
            + (s.wordPosition + (s.currentNumBits + bs.length) / 20) / 16 ∧
      (bs.foldl pushBit s).currentNumBits = (s.currentNumBits + bs.length) % 20 ∧
      (bs.foldl pushBit s).wordPosition
          = (s.wordPosition + (s.currentNumBits + bs.length) / 20) % 16 := by
  induction bs with
  | nil =>
    intro s h1 h2
    refine ⟨?_, ?_, ?_⟩ <;> simp <;> omega
  | cons b bs ih =>
    intro s h1 h2
    rw [List.foldl_cons, List.length_cons]
    by_cases h20 : s.currentNumBits + 1 = 20
    · by_cases h16 : s.wordPosition + 1 = 16
      · rw [pushBit_syncEmit s b h20 h16]
        obtain ⟨i1, i2, i3⟩ :=
          ih ⟨s.out ++ [emittedWord s.currentWord b, SYNC], 0, 0, 0⟩
            (by norm_num) (by norm_num)
        dsimp only at i1 i2 i3
        simp only [List.length_append, List.length_cons, List.length_nil] at i1
        refine ⟨?_, ?_, ?_⟩ <;> omega
      · rw [pushBit_emit s b h20 h16]
        obtain ⟨i1, i2, i3⟩ :=
          ih ⟨s.out ++ [emittedWord s.currentWord b], 0, 0, s.wordPosition + 1⟩
            (by norm_num) (by dsimp only; omega)
        dsimp only at i1 i2 i3
        simp only [List.length_append, List.length_cons, List.length_nil] at i1
        refine ⟨?_, ?_, ?_⟩ <;> omega
    · rw [pushBit_stay s b h20]
      obtain ⟨i1, i2, i3⟩ :=
        ih ⟨s.out, ((s.currentWord <<< 1) % 2 ^ 32) ||| b, s.currentNumBits + 1,
            s.wordPosition⟩
          (by dsimp only; omega) (by dsimp only; omega)
      dsimp only at i1 i2 i3
      refine ⟨?_, ?_, ?_⟩ <;> omega

/-- The exact number of words `encodeASCII` writes: `ceil(7n / 20)` data
words plus the SYNC words due from the starting batch position. -/
theorem encodeASCII_length (p0 : Nat) (hp0 : p0 < 16) (str : List Nat) :
    (encodeASCII p0 str).length =
      (7 * str.length + 19) / 20 + (p0 + (7 * str.length + 19) / 20) / 16 := by
  rw [encodeASCII, foldl_pushChar_eq]
  obtain ⟨i1, i2, i3⟩ :=
    foldl_pushBit_spec (msgBits str) ⟨[], 0, 0, p0⟩ (by norm_num) hp0
  dsimp only at i1 i2 i3
  simp only [List.length_nil, msgBits_length, Nat.zero_add] at i1 i2 i3
  set F := (msgBits str).foldl pushBit ⟨[], 0, 0, p0⟩ with hF
  by_cases hz : F.currentNumBits = 0
  · rw [flushRemainder_zero F hz, i1]
    rw [hz] at i2
    omega
  · by_cases h16 : F.wordPosition + 1 = 16
    · rw [flushRemainder_syncEmit F (by omega) h16]
      dsimp only
      simp only [List.length_append, List.length_cons, List.length_nil]
      rw [i1]
      rw [i3] at h16
      omega
    · rw [flushRemainder_emit F (by omega) h16]
      dsimp only
      simp only [List.length_append, List.length_cons, List.length_nil]
      rw [i1]
      rw [i3] at h16
      omega

/-! ### Transmission layout arithmetic -/

theorem addressOffset_le (a : Nat) : addressOffset a ≤ 14 := by
  rw [addressOffset, FRAME_SIZE]
  have h7 : a &&& 0x7 ≤ 0x7 := Nat.and_le_right
  omega

theorem addressOffset_eq_mod (a : Nat) : addressOffset a = a % 8 * 2 := by
  rw [addressOffset, FRAME_SIZE]
  have h : a &&& 0x7 = a % 2 ^ 3 := by
    have h7 : (0x7 : Nat) = 2 ^ 3 - 1 := by norm_num
    rw [h7, Nat.and_pow_two_sub_one_eq_mod]
  rw [h]
  norm_num

/-- The total length of a transmission: 18 preamble words plus the smallest
multiple of 17 that is strictly greater than the pre-padding body length. -/
theorem encodeTransmission_length (a : Nat) (m : List Nat) :
    (encodeTransmission a m).length =
      18 + 17 * ((3 + addressOffset a + (encodeASCII (addressOffset a + 1) m).length) / 17
          + 1) := by
  simp only [encodeTransmission, BATCH_SIZE, PREAMBLE_LENGTH, List.length_append,
    List.length_replicate, List.length_cons, List.length_nil]
  omega

/-- C1: for every address and every message, `encodeTransmission` writes
exactly `textMessageLength address (length message)` words (the 18 preamble
words included); the length calculator and the assembler agree on all
inputs, including the empty message. -/
theorem c1_length_calculator_agrees (address : Nat) (message : List Nat) :
    (encodeTransmission address message).length =
      textMessageLength address message.length := by
  have ho : addressOffset address ≤ 14 := addressOffset_le address
  have hL := encodeASCII_length (addressOffset address + 1) (by omega) message
  rw [encodeTransmission_length]
  simp only [textMessageLength, TEXT_BITS_PER_CHAR, TEXT_BITS_PER_WORD, BATCH_SIZE,
    PREAMBLE_LENGTH]
  omega

set_option maxRecDepth 1000000 in
/-- Counterexample to C3 as stated: for `address = 0` and a 38-character
message the pre-padding body (sync + address word + 14 data words +
terminating idle) is exactly 17 words — already a multiple of 17 — yet the
code still emits a full 17 further IDLE words, making the non-preamble
count 34 instead of the claimed 17. -/
theorem c3_counterexample :
    3 + addressOffset 0
        + (encodeASCII (addressOffset 0 + 1) (List.replicate 38 65)).length = 17 ∧
    (encodeTransmission 0 (List.replicate 38 65)).length - PREAMBLE_LENGTH / 32 = 34 := by
  constructor
  · decide
  · decide

/-- C3 (amended): after the terminating IDLE, `encodeTransmission` pads with
IDLE words until the word count since the first SYNC (inclusive) is the
smallest multiple of 17 *strictly greater* than the pre-padding count — in
particular, when the pre-padding count is already a multiple of 17 a full
batch of 17 IDLE words is still emitted; for `address = 0` and the empty
message the non-preamble word count is exactly 17. -/
theorem c3_padding_boundary (address : Nat) (message : List Nat) :
    (encodeTransmission address message).length - PREAMBLE_LENGTH / 32 =
      17 * ((3 + addressOffset address
          + (encodeASCII (addressOffset address + 1) message).length) / 17 + 1) ∧
    (encodeTransmission 0 []).length - PREAMBLE_LENGTH / 32 = 17 := by
  constructor
  · rw [encodeTransmission_length]
    simp only [PREAMBLE_LENGTH]
    omega
  · decide

/-- C10: `textMessageLength` depends on the address only through its low
3 bits, and the word count of `encodeTransmission` depends on the message
only through its length. -/
theorem c10_length_dependence (a a' n : Nat) (h8 : a % 8 = a' % 8)
    (addr : Nat) (m m' : List Nat) (hlen : m.length = m'.length) :
    textMessageLength a n = textMessageLength a' n ∧
    (encodeTransmission addr m).length = (encodeTransmission addr m').length := by
  constructor
  · have hoff : addressOffset a = addressOffset a' := by
      rw [addressOffset_eq_mod, addressOffset_eq_mod, h8]
    simp only [textMessageLength, hoff]
  · have ho : addressOffset addr ≤ 14 := addressOffset_le addr
    have hm := encodeASCII_length (addressOffset addr + 1) (by omega) m
    have hm' := encodeASCII_length (addressOffset addr + 1) (by omega) m'
    rw [encodeTransmission_length, encodeTransmission_length]
    omega

/-- Witness for C10: addresses 1 and 9 share their low 3 bits; `"A"` and
`"B"` have the same length. -/
theorem c10_witness :
    1 % 8 = 9 % 8 ∧ ([65] : List Nat).length = ([66] : List Nat).length ∧
    (textMessageLength 1 5 = textMessageLength 9 5 ∧
     (encodeTransmission 3 [65]).length = (encodeTransmission 3 [66]).length) :=
  ⟨by decide, by decide, c10_length_dependence 1 9 5 (by decide) 3 [65] [66] (by decide)⟩

/-! ### Generic list indexing helpers -/

theorem drop_exact_length {α : Type} (n : Nat) (l1 l2 : List α) (h : l1.length = n) :
    (l1 ++ l2).drop n = l2 := by
  rw [← h, List.drop_left]

theorem getD_append_right {α : Type} (l l2 : List α) (d : α) (n : Nat)
    (h : l.length ≤ n) : (l ++ l2).getD n d = l2.getD (n - l.length) d := by
  rw [List.getD_eq_getElem?_getD, List.getElem?_append_right h,
    ← List.getD_eq_getElem?_getD]

theorem getD_replicate_of_lt {α : Type} (a d : α) (n i : Nat) (h : i < n) :
    (List.replicate n a).getD i d = a := by
  rw [List.getD_eq_getElem?_getD, List.getElem?_replicate, if_pos h]
  rfl

/-! ### Bit extraction helpers -/

theorem shiftRight_two_mul_add {b : Nat} (x k : Nat) (hb : b < 2) :
    (x * 2 + b) >>> (k + 1) = x >>> k := by
  rw [Nat.shiftRight_eq_div_pow, Nat.shiftRight_eq_div_pow]
  have h2 : (2 : Nat) ^ (k + 1) = 2 * 2 ^ k := by ring
  rw [h2, ← Nat.div_div_eq_div_mul]
  have h1 : (x * 2 + b) / 2 = x := by omega
  rw [h1]

theorem shiftRight_mul_pow_le {a k : Nat} (x : Nat) (h : a ≤ k) :
    (x * 2 ^ a) >>> k = x >>> (k - a) := by
  rw [Nat.shiftRight_eq_div_pow, Nat.shiftRight_eq_div_pow]
  have hk : (2 : Nat) ^ k = 2 ^ a * 2 ^ (k - a) := by
    rw [← pow_add]
    congr 1
    omega
  rw [hk, Nat.mul_comm x (2 ^ a), Nat.mul_div_mul_left _ _ (Nat.pos_pow_of_pos a (by norm_num))]

theorem shiftRight_mul_pow_gt {a k : Nat} (x : Nat) (h : k ≤ a) :
    (x * 2 ^ a) >>> k = x * 2 ^ (a - k) := by
  rw [Nat.shiftRight_eq_div_pow]
  have ha : (2 : Nat) ^ a = 2 ^ (a - k) * 2 ^ k := by
    rw [← pow_add]
    congr 1
    omega
  rw [ha, ← Nat.mul_assoc]
  exact Nat.mul_div_cancel _ (Nat.pos_pow_of_pos k (by norm_num))

theorem and_one_even_add {y x : Nat} (hy : 2 ∣ y) : (y + x) &&& 1 = x &&& 1 := by
  rw [Nat.and_one_is_mod, Nat.and_one_is_mod]
  omega

/-- Bit `k ≤ 19` of `2 ^ 20 + y` agrees with bit `k` of `y`. -/
theorem shiftRight_flag_add {y k : Nat} (hk : k ≤ 19) :
    ((2 ^ 20 + y) >>> k) &&& 1 = (y >>> k) &&& 1 := by
  rw [Nat.shiftRight_eq_div_pow, Nat.shiftRight_eq_div_pow]
  have hsplit : (2 : Nat) ^ 20 = 2 ^ (20 - k) * 2 ^ k := by
    rw [← pow_add]
    congr 1
    omega
  have hdiv : (2 ^ 20 + y) / 2 ^ k = 2 ^ (20 - k) + y / 2 ^ k := by
    rw [hsplit, Nat.add_comm, Nat.add_mul_div_right _ _ (Nat.pos_pow_of_pos k (by norm_num)),
      Nat.add_comm]
  rw [hdiv]
  apply and_one_even_add
  have hk19 : 20 - k = (19 - k) + 1 := by omega
  rw [hk19, pow_succ]
  exact ⟨2 ^ (19 - k), by ring⟩

/-- Setting `FLAG_MESSAGE` on a 20-bit accumulator adds `2 ^ 20`. -/
theorem or_flag_message {x : Nat} (hx : x < 2 ^ 20) :
    x ||| FLAG_MESSAGE = 2 ^ 20 + x := by
  have hflag : FLAG_MESSAGE = 1 <<< 20 := by decide
  rw [hflag, Nat.lor_comm, shiftLeft_or_small 1 hx, Nat.one_mul]

/-! ### Payload bits of emitted codewords -/

/-- The 20 payload bits of `encodeCodeword p` are the low 20 bits of `p`,
most significant first. -/
theorem payloadBits_encodeCodeword {p : Nat} (hp : p < 2 ^ 21) :
    payloadBits (encodeCodeword p) =
      (List.range 20).map (fun j => (p >>> (19 - j)) &&& 1) := by
  have hc : crc p < 2 ^ 10 := crc_lt p
  have hpar : parity (p * 2 ^ 10 + crc p) < 2 := parity_lt_two _
  have he := encodeCodeword_eq hp
  rw [payloadBits]
  apply List.map_congr_left
  intro j hj
  have hj20 : j < 20 := List.mem_range.mp hj
  rw [he]
  have hrw : (p * 2 ^ 10 + crc p) * 2 + parity (p * 2 ^ 10 + crc p) =
      p * 2 ^ 11 + (crc p * 2 + parity (p * 2 ^ 10 + crc p)) := by ring
  rw [hrw]
  have hlow : crc p * 2 + parity (p * 2 ^ 10 + crc p) < 2 ^ 11 := by omega
  have hidx : 30 - j = (19 - j) + 11 := by omega
  rw [hidx]
  have hdiv : (p * 2 ^ 11 + (crc p * 2 + parity (p * 2 ^ 10 + crc p))) >>> ((19 - j) + 11) =
      p >>> (19 - j) := by
    rw [Nat.shiftRight_eq_div_pow, Nat.shiftRight_eq_div_pow]
    have hsplit : (2 : Nat) ^ ((19 - j) + 11) = 2 ^ 11 * 2 ^ (19 - j) := by
      rw [← pow_add]
      congr 1
      omega
    rw [hsplit, ← Nat.div_div_eq_div_mul]
    congr 1
    omega
  rw [hdiv]

/-- The emitted data word of a full accumulator carries exactly its 20
accumulated bits as payload. -/
theorem payloadBits_emittedWord {cw b : Nat} (hcw : cw < 2 ^ 19) (hb : b < 2) :
    payloadBits (emittedWord cw b) =
      pendingBits (((cw <<< 1) % 2 ^ 32) ||| b) 20 := by
  have hsh : (cw <<< 1) % 2 ^ 32 = cw * 2 := by
    rw [Nat.shiftLeft_eq, pow_one]
    apply Nat.mod_eq_of_lt
    have : (2 : Nat) ^ 19 * 2 ≤ 2 ^ 32 := by norm_num
    omega
  have hor : (cw * 2) ||| b = cw * 2 + b := by
    have := shiftLeft_or_small (k := 1) cw (by omega : b < 2 ^ 1)
    rw [Nat.shiftLeft_eq, pow_one] at this
    exact this
  have hcw20 : cw * 2 + b < 2 ^ 20 := by
    have : (2 : Nat) ^ 19 * 2 = 2 ^ 20 := by norm_num
    omega
  rw [emittedWord, hsh, hor]
  have hflag : (cw * 2 + b) ||| FLAG_MESSAGE = 2 ^ 20 + (cw * 2 + b) :=
    or_flag_message hcw20
  rw [hflag, payloadBits_encodeCodeword (by omega), pendingBits]
  apply List.map_congr_left
  intro j hj
  have hj20 : j < 20 := List.mem_range.mp hj
  have h19 : 20 - 1 - j = 19 - j := by omega
  rw [h19, shiftRight_flag_add (by omega)]

/-- The flushed data word carries the pending bits, zero-padded to 20. -/
theorem payloadBits_flushWord {cw nb : Nat} (hcw : cw < 2 ^ nb) (h0 : 0 < nb)
    (h19 : nb ≤ 19) :
    payloadBits (flushWord cw nb) = pendingBits cw nb ++ List.replicate (20 - nb) 0 := by
  have hshval : cw * 2 ^ (20 - nb) < 2 ^ 20 := by
    have h1 : cw * 2 ^ (20 - nb) < 2 ^ nb * 2 ^ (20 - nb) :=
      mul_lt_mul_of_pos_right hcw (Nat.pos_pow_of_pos _ (by norm_num))
    have h2 : (2 : Nat) ^ nb * 2 ^ (20 - nb) = 2 ^ 20 := by
      rw [← pow_add]
      congr 1
      omega
    omega
  have hsh : (cw <<< (20 - nb)) % 2 ^ 32 = cw * 2 ^ (20 - nb) := by
    rw [Nat.shiftLeft_eq]
    apply Nat.mod_eq_of_lt
    have : (2 : Nat) ^ 20 ≤ 2 ^ 32 := by norm_num
    omega
  have hp21 : 2 ^ 20 + cw * 2 ^ (20 - nb) < 2 ^ 21 := by
    have h2021 : (2 : Nat) ^ 20 + 2 ^ 20 = 2 ^ 21 := by norm_num
    omega
  rw [flushWord, hsh, or_flag_message hshval, payloadBits_encodeCodeword hp21]
  have h20 : nb + (20 - nb) = 20 := by omega
  have hsplit : List.range 20 = List.range nb ++ (List.range (20 - nb)).map (fun i => nb + i) := by
    conv_lhs => rw [← h20]
    rw [List.range_add]
  rw [hsplit, List.map_append]
  congr 1
  · rw [pendingBits]
    apply List.map_congr_left
    intro j hj
    have hjnb : j < nb := List.mem_range.mp hj
    rw [shiftRight_flag_add (by omega)]
    have hs := shiftRight_mul_pow_le (a := 20 - nb) (k := 19 - j) cw (by omega)
    rw [hs]
    congr 2
    omega
  · have hzero : ∀ x ∈ (List.range (20 - nb)).map (fun i => nb + i),
        ((2 ^ 20 + cw * 2 ^ (20 - nb)) >>> (19 - x)) &&& 1 = 0 := by
      intro x hx
      obtain ⟨i, hi, rfl⟩ := List.mem_map.mp hx
      have hilt : i < 20 - nb := List.mem_range.mp hi
      rw [shiftRight_flag_add (by omega)]
      have hs := shiftRight_mul_pow_gt (a := 20 - nb) (k := 19 - (nb + i)) cw (by omega)
      rw [hs]
      have hexp : 20 - nb - (19 - (nb + i)) = i + 1 := by omega
      rw [hexp]
      have heven : 2 ∣ cw * 2 ^ (i + 1) := ⟨cw * 2 ^ i, by ring⟩
      rw [Nat.and_one_is_mod]
      omega
    calc ((List.range (20 - nb)).map (fun i => nb + i)).map
          (fun j => ((2 ^ 20 + cw * 2 ^ (20 - nb)) >>> (19 - j)) &&& 1)
        = ((List.range (20 - nb)).map (fun i => nb + i)).map (fun _ => 0) :=
          List.map_congr_left hzero
      _ = List.replicate (20 - nb) 0 := by
          rw [List.map_const']
          simp

/-! ### Word magnitude facts -/

theorem encodeCodeword_big {p : Nat} (hlo : 2 ^ 20 ≤ p) (hhi : p < 2 ^ 21) :
    2 ^ 31 ≤ encodeCodeword p := by
  rw [encodeCodeword_eq hhi]
  have h : (2 : Nat) ^ 20 * 2 ^ 10 * 2 = 2 ^ 31 := by norm_num
  have hm : 2 ^ 20 * 2 ^ 10 ≤ p * 2 ^ 10 :=
    Nat.mul_le_mul_right _ hlo
  omega

theorem emittedWord_big {cw b : Nat} (hcw : cw < 2 ^ 19) (hb : b < 2) :
    2 ^ 31 ≤ emittedWord cw b := by
  have hsh : (cw <<< 1) % 2 ^ 32 = cw * 2 := by
    rw [Nat.shiftLeft_eq, pow_one]
    apply Nat.mod_eq_of_lt
    have : (2 : Nat) ^ 19 * 2 ≤ 2 ^ 32 := by norm_num
    omega
  have hor : (cw * 2) ||| b = cw * 2 + b := by
    have := shiftLeft_or_small (k := 1) cw (by omega : b < 2 ^ 1)
    rw [Nat.shiftLeft_eq, pow_one] at this
    exact this
  have hcw20 : cw * 2 + b < 2 ^ 20 := by
    have : (2 : Nat) ^ 19 * 2 = 2 ^ 20 := by norm_num
    omega
  rw [emittedWord, hsh, hor, or_flag_message hcw20]
  apply encodeCodeword_big (by omega)
  have : (2 : Nat) ^ 20 + 2 ^ 20 ≤ 2 ^ 21 := by norm_num
  omega

theorem flushWord_big {cw nb : Nat} (hcw : cw < 2 ^ nb) (h19 : nb ≤ 19) :
    2 ^ 31 ≤ flushWord cw nb := by
  have hshval : cw * 2 ^ (20 - nb) < 2 ^ 20 := by
    have h1 : cw * 2 ^ (20 - nb) < 2 ^ nb * 2 ^ (20 - nb) :=
      mul_lt_mul_of_pos_right hcw (Nat.pos_pow_of_pos _ (by norm_num))
    have h2 : (2 : Nat) ^ nb * 2 ^ (20 - nb) = 2 ^ 20 := by
      rw [← pow_add]
      congr 1
      omega
    omega
  have hsh : (cw <<< (20 - nb)) % 2 ^ 32 = cw * 2 ^ (20 - nb) := by
    rw [Nat.shiftLeft_eq]
    apply Nat.mod_eq_of_lt
    have : (2 : Nat) ^ 20 ≤ 2 ^ 32 := by norm_num
    omega
  rw [flushWord, hsh, or_flag_message hshval]
  apply encodeCodeword_big (by omega)
  have : (2 : Nat) ^ 20 + 2 ^ 20 ≤ 2 ^ 21 := by norm_num
  omega

theorem sync_small : SYNC < 2 ^ 31 := by decide

theorem idle_small : IDLE < 2 ^ 31 := by decide

theorem isDataWord_iff (w : Nat) : isDataWord w = true ↔ 2 ^ 31 ≤ w := by
  simp [isDataWord]

/-! ### Pending accumulator bits -/

theorem pendingBits_zero (cw : Nat) : pendingBits cw 0 = [] := by
  simp [pendingBits]

theorem pendingBits_snoc {cw nb b : Nat} (hcw : cw < 2 ^ nb) (hnb : nb ≤ 19)
    (hb : b < 2) :
    pendingBits (((cw <<< 1) % 2 ^ 32) ||| b) (nb + 1) = pendingBits cw nb ++ [b] := by
  have hcw19 : cw < 2 ^ 19 :=
    lt_of_lt_of_le hcw (Nat.pow_le_pow_right (by norm_num) hnb)
  have hsh : (cw <<< 1) % 2 ^ 32 = cw * 2 := by
    rw [Nat.shiftLeft_eq, pow_one]
    apply Nat.mod_eq_of_lt
    have : (2 : Nat) ^ 19 * 2 ≤ 2 ^ 32 := by norm_num
    omega
  have hor : (cw * 2) ||| b = cw * 2 + b := by
    have := shiftLeft_or_small (k := 1) cw (by omega : b < 2 ^ 1)
    rw [Nat.shiftLeft_eq, pow_one] at this
    exact this
  rw [hsh, hor, pendingBits, pendingBits, List.range_succ, List.map_append]
  congr 1
  · apply List.map_congr_left
    intro j hj
    have hjnb : j < nb := List.mem_range.mp hj
    have hidx : nb + 1 - 1 - j = (nb - 1 - j) + 1 := by omega
    rw [hidx, shiftRight_two_mul_add cw (nb - 1 - j) hb]
  · simp only [List.map_cons, List.map_nil]
    have hidx : nb + 1 - 1 - nb = 0 := by omega
    rw [hidx, Nat.shiftRight_zero, Nat.and_one_is_mod]
    congr 1
    omega

/-! ### Data payload extraction -/

theorem dataPayloadBits_nil : dataPayloadBits [] = [] := by
  simp [dataPayloadBits]

theorem dataPayloadBits_append (l1 l2 : List Nat) :
    dataPayloadBits (l1 ++ l2) = dataPayloadBits l1 ++ dataPayloadBits l2 := by
  simp [dataPayloadBits, List.filter_append]

theorem dataPayloadBits_data {w : Nat} (h : 2 ^ 31 ≤ w) :
    dataPayloadBits [w] = payloadBits w := by
  have hT : isDataWord w = true := by
    simp only [isDataWord, decide_eq_true_eq]
    omega
  simp [dataPayloadBits, List.filter_cons, hT]

theorem dataPayloadBits_skip {w : Nat} (h : w < 2 ^ 31) :
    dataPayloadBits [w] = [] := by
  have hF : isDataWord w = false := by
    simp only [isDataWord, decide_eq_false_iff_not]
    omega
  simp [dataPayloadBits, List.filter_cons, hF]

/-! ### The packer invariant: SYNC placement and payload content -/

/-- Master invariant of the bit loop.  `base` is the batch-stream index of
the first word of `s.out`; provided every SYNC so far sits at a stream index
divisible by 17, the batch position matches the stream index modulo 17, data
words are large ( ≥ 2^31 ), and the accumulated payload bits spell out the
bits pushed so far, all of this is preserved by pushing further bits, and
the payload bits grow by exactly the pushed bits. -/
theorem foldl_pushBit_inv (bs : List Nat) :
    ∀ (s : AsciiState) (base : Nat), (∀ b ∈ bs, b < 2) →
      s.currentNumBits < 20 → s.wordPosition < 16 →
      s.currentWord < 2 ^ s.currentNumBits →
      (base + s.out.length) % 17 = s.wordPosition + 1 →
      (∀ q, q < s.out.length → ((s.out.getD q 0 = SYNC) ↔ (base + q) % 17 = 0)) →
      (∀ w ∈ s.out, w = SYNC ∨ 2 ^ 31 ≤ w) →
      (bs.foldl pushBit s).currentWord < 2 ^ (bs.foldl pushBit s).currentNumBits ∧
      (base + (bs.foldl pushBit s).out.length) % 17
          = (bs.foldl pushBit s).wordPosition + 1 ∧
      (∀ q, q < (bs.foldl pushBit s).out.length →
        (((bs.foldl pushBit s).out.getD q 0 = SYNC) ↔ (base + q) % 17 = 0)) ∧
      (∀ w ∈ (bs.foldl pushBit s).out, w = SYNC ∨ 2 ^ 31 ≤ w) ∧
      dataPayloadBits (bs.foldl pushBit s).out
          ++ pendingBits (bs.foldl pushBit s).currentWord
              (bs.foldl pushBit s).currentNumBits
        = dataPayloadBits s.out ++ pendingBits s.currentWord s.currentNumBits ++ bs := by
  induction bs with
  | nil =>
    intro s base hbits h1 h2 h3 h4 h5 h6
    exact ⟨h3, h4, h5, h6, by simp⟩
  | cons b bs ih =>
    intro s base hbits h1 h2 h3 h4 h5 h6
    have hb : b < 2 := hbits b (List.mem_cons_self b bs)
    have hbits' : ∀ x ∈ bs, x < 2 := fun x hx => hbits x (List.mem_cons_of_mem b hx)
    rw [List.foldl_cons]
    by_cases h20 : s.currentNumBits + 1 = 20
    · have hnb19 : s.currentNumBits = 19 := by omega
      have hcw19 : s.currentWord < 2 ^ 19 := by rw [← hnb19]; exact h3
      have hwbig : 2 ^ 31 ≤ emittedWord s.currentWord b := emittedWord_big hcw19 hb
      have hwne : emittedWord s.currentWord b ≠ SYNC := by
        have hs := sync_small
        omega
      have hpend : pendingBits (((s.currentWord <<< 1) % 2 ^ 32) ||| b) 20
          = pendingBits s.currentWord s.currentNumBits ++ [b] := by
        have := pendingBits_snoc h3 (by omega) hb
        rw [h20] at this
        exact this
      have hpay : payloadBits (emittedWord s.currentWord b)
          = pendingBits s.currentWord s.currentNumBits ++ [b] := by
        rw [payloadBits_emittedWord hcw19 hb, hpend]
      by_cases h16 : s.wordPosition + 1 = 16
      · rw [pushBit_syncEmit s b h20 h16]
        obtain ⟨j1, j2, j3, j4, j5⟩ :=
          ih ⟨s.out ++ [emittedWord s.currentWord b, SYNC], 0, 0, 0⟩ base hbits'
            (by norm_num) (by norm_num) (by norm_num)
            (by
              dsimp only
              rw [List.length_append, List.length_cons, List.length_cons, List.length_nil]
              omega)
            (by
              intro q hq
              dsimp only at hq ⊢
              rw [List.length_append, List.length_cons, List.length_cons,
                List.length_nil] at hq
              by_cases hql : q < s.out.length
              · rw [List.getD_append _ _ _ _ hql]
                exact h5 q hql
              · by_cases hq1 : q = s.out.length
                · subst hq1
                  rw [getD_append_right _ _ _ _ (le_refl _), Nat.sub_self,
                    List.getD_cons_zero]
                  constructor
                  · intro hws
                    exact absurd hws hwne
                  · intro h0
                    omega
                · have hq2 : q = s.out.length + 1 := by omega
                  subst hq2
                  rw [getD_append_right _ _ _ _ (by omega)]
                  have hone : s.out.length + 1 - s.out.length = 1 := by omega
                  rw [hone, List.getD_cons_succ, List.getD_cons_zero]
                  constructor
                  · intro _
                    omega
                  · intro _
                    rfl)
            (by
              intro w hw
              dsimp only at hw
              rw [List.mem_append] at hw
              rcases hw with hw | hw
              · exact h6 w hw
              · simp only [List.mem_cons, List.mem_singleton] at hw
                rcases hw with rfl | hw
                · right
                  exact hwbig
                · simp only [List.not_mem_nil, or_false] at hw
                  subst hw
                  left
                  rfl)
        refine ⟨j1, j2, j3, j4, ?_⟩
        rw [j5]
        dsimp only
        rw [pendingBits_zero]
        have hsplit2 : s.out ++ [emittedWord s.currentWord b, SYNC]
            = (s.out ++ [emittedWord s.currentWord b]) ++ [SYNC] := by
          simp
        rw [hsplit2, dataPayloadBits_append, dataPayloadBits_append,
          dataPayloadBits_data hwbig, dataPayloadBits_skip sync_small, hpay]
        simp [List.append_assoc]
      · rw [pushBit_emit s b h20 h16]
        obtain ⟨j1, j2, j3, j4, j5⟩ :=
          ih ⟨s.out ++ [emittedWord s.currentWord b], 0, 0, s.wordPosition + 1⟩ base hbits'
            (by norm_num) (by dsimp only; omega) (by norm_num)
            (by
              dsimp only
              rw [List.length_append, List.length_cons, List.length_nil]
              omega)
            (by
              intro q hq
              dsimp only at hq ⊢
              rw [List.length_append, List.length_cons, List.length_nil] at hq
              by_cases hql : q < s.out.length
              · rw [List.getD_append _ _ _ _ hql]
                exact h5 q hql
              · have hq1 : q = s.out.length := by omega
                subst hq1
                rw [getD_append_right _ _ _ _ (le_refl _), Nat.sub_self,
                  List.getD_cons_zero]
                constructor
                · intro hws
                  exact absurd hws hwne
                · intro h0
                  omega)
            (by
              intro w hw
              dsimp only at hw
              rw [List.mem_append] at hw
              rcases hw with hw | hw
              · exact h6 w hw
              · simp only [List.mem_singleton] at hw
                subst hw
                right
                exact hwbig)
        refine ⟨j1, j2, j3, j4, ?_⟩
        rw [j5]
        dsimp only
        rw [pendingBits_zero, dataPayloadBits_append, dataPayloadBits_data hwbig, hpay]
        simp [List.append_assoc]
    · rw [pushBit_stay s b h20]
      have hcw' : ((s.currentWord <<< 1) % 2 ^ 32) ||| b < 2 ^ (s.currentNumBits + 1) := by
        have hcw19 : s.currentWord < 2 ^ 19 :=
          lt_of_lt_of_le h3 (Nat.pow_le_pow_right (by norm_num) (by omega))
        have hsh : (s.currentWord <<< 1) % 2 ^ 32 = s.currentWord * 2 := by
          rw [Nat.shiftLeft_eq, pow_one]
          apply Nat.mod_eq_of_lt
          have : (2 : Nat) ^ 19 * 2 ≤ 2 ^ 32 := by norm_num
          omega
        have hor : (s.currentWord * 2) ||| b = s.currentWord * 2 + b := by
          have := shiftLeft_or_small (k := 1) s.currentWord (by omega : b < 2 ^ 1)
          rw [Nat.shiftLeft_eq, pow_one] at this
          exact this
        rw [hsh, hor, pow_succ]
        omega
      obtain ⟨j1, j2, j3, j4, j5⟩ :=
        ih ⟨s.out, ((s.currentWord <<< 1) % 2 ^ 32) ||| b, s.currentNumBits + 1,
            s.wordPosition⟩ base hbits'
          (by dsimp only; omega) (by dsimp only; omega) (by dsimp only; exact hcw')
          (by dsimp only; exact h4) (by dsimp only; exact h5) (by dsimp only; exact h6)
      refine ⟨j1, j2, j3, j4, ?_⟩
      rw [j5]
      dsimp only
      rw [pendingBits_snoc h3 (by omega) hb]
      simp [List.append_assoc]

/-- The invariant survives the final flush of leftover bits. -/
theorem flushRemainder_inv (s : AsciiState) (base : Nat)
    (h1 : s.currentNumBits < 20) (h2 : s.wordPosition < 16)
    (h3 : s.currentWord < 2 ^ s.currentNumBits)
    (h4 : (base + s.out.length) % 17 = s.wordPosition + 1)
    (h5 : ∀ q, q < s.out.length → ((s.out.getD q 0 = SYNC) ↔ (base + q) % 17 = 0))
    (h6 : ∀ w ∈ s.out, w = SYNC ∨ 2 ^ 31 ≤ w) :
    (flushRemainder s).wordPosition < 16 ∧
    (base + (flushRemainder s).out.length) % 17 = (flushRemainder s).wordPosition + 1 ∧
    (∀ q, q < (flushRemainder s).out.length →
      (((flushRemainder s).out.getD q 0 = SYNC) ↔ (base + q) % 17 = 0)) ∧
    (∀ w ∈ (flushRemainder s).out, w = SYNC ∨ 2 ^ 31 ≤ w) ∧
    dataPayloadBits (flushRemainder s).out
      = dataPayloadBits s.out ++ pendingBits s.currentWord s.currentNumBits
          ++ (if s.currentNumBits = 0 then []
              else List.replicate (20 - s.currentNumBits) 0) := by
  by_cases h0 : s.currentNumBits = 0
  · rw [flushRemainder_zero s h0, h0, pendingBits_zero, if_pos rfl]
    exact ⟨h2, h4, h5, h6, by simp⟩
  · have h0' : 0 < s.currentNumBits := by omega
    have h19 : s.currentNumBits ≤ 19 := by omega
    have hwbig : 2 ^ 31 ≤ flushWord s.currentWord s.currentNumBits := flushWord_big h3 h19
    have hwne : flushWord s.currentWord s.currentNumBits ≠ SYNC := by
      have hs := sync_small
      omega
    have hpay := payloadBits_flushWord h3 h0' h19
    rw [if_neg h0]
    by_cases h16 : s.wordPosition + 1 = 16
    · rw [flushRemainder_syncEmit s h0' h16]
      dsimp only
      refine ⟨by norm_num, ?_, ?_, ?_, ?_⟩
      · rw [List.length_append, List.length_cons, List.length_cons, List.length_nil]
        omega
      · intro q hq
        rw [List.length_append, List.length_cons, List.length_cons, List.length_nil] at hq
        by_cases hql : q < s.out.length
        · rw [List.getD_append _ _ _ _ hql]
          exact h5 q hql
        · by_cases hq1 : q = s.out.length
          · subst hq1
            rw [getD_append_right _ _ _ _ (le_refl _), Nat.sub_self, List.getD_cons_zero]
            constructor
            · intro hws
              exact absurd hws hwne
            · intro hz
              omega
          · have hq2 : q = s.out.length + 1 := by omega
            subst hq2
            rw [getD_append_right _ _ _ _ (by omega)]
            have hone : s.out.length + 1 - s.out.length = 1 := by omega
            rw [hone, List.getD_cons_succ, List.getD_cons_zero]
            constructor
            · intro _
              omega
            · intro _
              rfl
      · intro w hw
        rw [List.mem_append] at hw
        rcases hw with hw | hw
        · exact h6 w hw
        · simp only [List.mem_cons, List.mem_singleton] at hw
          rcases hw with rfl | hw
          · right
            exact hwbig
          · simp only [List.not_mem_nil, or_false] at hw
            subst hw
            left
            rfl
      · have hsplit2 : s.out ++ [flushWord s.currentWord s.currentNumBits, SYNC]
            = (s.out ++ [flushWord s.currentWord s.currentNumBits]) ++ [SYNC] := by
          simp
        rw [hsplit2, dataPayloadBits_append, dataPayloadBits_append,
          dataPayloadBits_data hwbig, dataPayloadBits_skip sync_small, hpay]
        simp [List.append_assoc]
    · rw [flushRemainder_emit s h0' h16]
      dsimp only
      refine ⟨by omega, ?_, ?_, ?_, ?_⟩
      · rw [List.length_append, List.length_cons, List.length_nil]
        omega
      · intro q hq
        rw [List.length_append, List.length_cons, List.length_nil] at hq
        by_cases hql : q < s.out.length
        · rw [List.getD_append _ _ _ _ hql]
          exact h5 q hql
        · have hq1 : q = s.out.length := by omega
          subst hq1
          rw [getD_append_right _ _ _ _ (le_refl _), Nat.sub_self, List.getD_cons_zero]
          constructor
          · intro hws
            exact absurd hws hwne
          · intro hz
            omega
      · intro w hw
        rw [List.mem_append] at hw
        rcases hw with hw | hw
        · exact h6 w hw
        · simp only [List.mem_singleton] at hw
          subst hw
          right
          exact hwbig
      · rw [dataPayloadBits_append, dataPayloadBits_data hwbig, hpay]
        simp [List.append_assoc]

/-- Everything claims C4 and C6 need about the word list `encodeASCII`
produces, phrased against the batch-stream index `base` of its first word. -/
theorem encodeASCII_spec (p0 base : Nat) (hp0 : p0 < 16)
    (hbase : base % 17 = p0 + 1) (str : List Nat) :
    (∀ q, q < (encodeASCII p0 str).length →
      (((encodeASCII p0 str).getD q 0 = SYNC) ↔ (base + q) % 17 = 0)) ∧
    (∀ w ∈ encodeASCII p0 str, w = SYNC ∨ 2 ^ 31 ≤ w) ∧
    (base + (encodeASCII p0 str).length) % 17 ≠ 0 ∧
    dataPayloadBits (encodeASCII p0 str)
      = msgBits str ++ (if 7 * str.length % 20 = 0 then []
          else List.replicate (20 - 7 * str.length % 20) 0) := by
  have hbits : ∀ b ∈ msgBits str, b < 2 := by
    intro b hb
    rw [msgBits] at hb
    obtain ⟨c, _, hc⟩ := List.mem_flatMap.mp hb
    rw [charBits] at hc
    obtain ⟨i, _, hi⟩ := List.mem_map.mp hc
    rw [← hi, Nat.and_one_is_mod]
    omega
  obtain ⟨v1, v2, v3, v4, v5⟩ :=
    foldl_pushBit_inv (msgBits str) ⟨[], 0, 0, p0⟩ base hbits
      (by norm_num) hp0 (by norm_num) (by simpa using hbase)
      (by intro q hq; simp at hq) (by intro w hw; simp at hw)
  obtain ⟨l1, l2, l3⟩ :=
    foldl_pushBit_spec (msgBits str) ⟨[], 0, 0, p0⟩ (by norm_num) hp0
  dsimp only at l1 l2 l3
  simp only [List.length_nil, msgBits_length, Nat.zero_add] at l1 l2 l3
  set F := (msgBits str).foldl pushBit ⟨[], 0, 0, p0⟩ with hF
  have hFnb : F.currentNumBits < 20 := by rw [l2]; omega
  have hFwp : F.wordPosition < 16 := by rw [l3]; omega
  obtain ⟨f1, f2, f3, f4, f5⟩ := flushRemainder_inv F base hFnb hFwp v1 v2 v3 v4
  have hv5 : dataPayloadBits F.out ++ pendingBits F.currentWord F.currentNumBits
      = msgBits str := by
    dsimp only at v5
    rw [pendingBits_zero, dataPayloadBits_nil, List.nil_append, List.nil_append] at v5
    exact v5
  simp only [encodeASCII, foldl_pushChar_eq, ← hF]
  refine ⟨f3, f4, ?_, ?_⟩
  · rw [f2]
    omega
  · rw [f5, hv5, l2]

/-! ### The address codeword -/

theorem addrWord_facts (a : Nat) (ha : a < 2 ^ 21) :
    addrWord a < 2 ^ 31 ∧ addrWord a ≠ SYNC ∧ addrWord a ≠ IDLE := by
  have h3 : a >>> 3 < 2 ^ 18 := by
    rw [Nat.shiftRight_eq_div_pow]
    omega
  have hor : ((a >>> 3) <<< 2) ||| FLAG_TEXT_DATA = (a >>> 3) * 4 + 3 := by
    have hf : (FLAG_TEXT_DATA : Nat) < 2 ^ 2 := by decide
    rw [shiftLeft_or_small (a >>> 3) hf]
    norm_num [FLAG_TEXT_DATA]
  have hp20 : (a >>> 3) * 4 + 3 < 2 ^ 20 := by omega
  have he := encodeCodeword_eq (m := (a >>> 3) * 4 + 3) (by omega)
  have hc := crc_lt ((a >>> 3) * 4 + 3)
  have hq := parity_lt_two (((a >>> 3) * 4 + 3) * 2 ^ 10 + crc ((a >>> 3) * 4 + 3))
  rw [addrWord, hor]
  have hS : SYNC = 0x7CD215D8 := rfl
  have hI : IDLE = 0x7A89C197 := rfl
  refine ⟨?_, ?_, ?_⟩
  · rw [he]
    omega
  · rw [he, hS]
    omega
  · rw [he, hI]
    omega

/-! ### Stream decomposition of a transmission -/

theorem streamWords_eq (a : Nat) (m : List Nat) :
    streamWords a m =
      [SYNC] ++ List.replicate (addressOffset a) IDLE ++ [addrWord a]
        ++ encodeASCII (addressOffset a + 1) m ++ [IDLE]
        ++ List.replicate
            (17 - (3 + addressOffset a
                + (encodeASCII (addressOffset a + 1) m).length) % 17)
            IDLE := by
  rw [streamWords]
  simp only [encodeTransmission, BATCH_SIZE]
  rw [List.append_assoc,
    drop_exact_length (PREAMBLE_LENGTH / 32)
      (List.replicate (PREAMBLE_LENGTH / 32) (0xAAAAAAAA : Nat)) _
      (List.length_replicate _ _)]
  have hlen : ([SYNC] ++ List.replicate (addressOffset a) IDLE ++ [addrWord a]
      ++ encodeASCII (addressOffset a + 1) m ++ [IDLE]).length
      = 3 + addressOffset a + (encodeASCII (addressOffset a + 1) m).length := by
    simp only [List.length_append, List.length_replicate, List.length_cons,
      List.length_nil]
    omega
  rw [show encodeCodeword (((a >>> 3) <<< 2) ||| FLAG_TEXT_DATA) = addrWord a from rfl]
  rw [hlen]

set_option maxRecDepth 1000000 in
/-- Counterexample to C4 as stated: for `address = 0` and a 38-character
message the stream has 34 non-preamble words, so index 17 exists, yet the
word there is the first padding IDLE, not SYNC. -/
theorem c4_counterexample :
    17 < (streamWords 0 (List.replicate 38 65)).length ∧
    (streamWords 0 (List.replicate 38 65)).getD 17 0 = IDLE ∧
    IDLE ≠ SYNC := by
  refine ⟨?_, ?_, ?_⟩
  · decide
  · decide
  · decide

/-- C4 (amended): counting from the first word after the preamble, the word
at index `i` is SYNC exactly when `i` is a multiple of 17 *below the
pre-padding word count*; in particular every SYNC sits at a multiple of 17,
every multiple of 17 before the final IDLE padding carries a SYNC, and the
IDLE padding may cover one further multiple of 17 without a SYNC. -/
theorem c4_sync_positions (address : Nat) (message : List Nat) (ha : address < 2 ^ 21)
    (i : Nat) (hi : i < (streamWords address message).length) :
    ((streamWords address message).getD i 0 = SYNC) ↔
      (i % 17 = 0 ∧ i < 3 + addressOffset address
          + (encodeASCII (addressOffset address + 1) message).length) := by
  have ho : addressOffset address ≤ 14 := addressOffset_le address
  obtain ⟨hAsmall, hAnsync, _⟩ := addrWord_facts address ha
  set o := addressOffset address with hodef
  set E := encodeASCII (o + 1) message with hEdef
  obtain ⟨e1, e2, e3, _⟩ :=
    encodeASCII_spec (o + 1) (o + 2) (by omega) (by omega) message
  rw [← hEdef] at e1 e3
  have hIS : IDLE ≠ SYNC := by decide
  rw [streamWords_eq] at hi ⊢
  rw [← hEdef] at hi ⊢
  simp only [List.length_append, List.length_replicate, List.length_cons,
    List.length_nil] at hi
  by_cases hpre : i < 3 + o + E.length
  · rw [List.getD_append _ _ _ _
      (by
        simp only [List.length_append, List.length_replicate, List.length_cons,
          List.length_nil]
        omega)]
    by_cases hlt4 : i < 2 + o + E.length
    · rw [List.getD_append _ _ _ _
        (by
          simp only [List.length_append, List.length_replicate, List.length_cons,
            List.length_nil]
          omega)]
      by_cases hlt3 : i < 2 + o
      · rw [List.getD_append _ _ _ _
          (by
            simp only [List.length_append, List.length_replicate, List.length_cons,
              List.length_nil]
            omega)]
        by_cases hlt2 : i < 1 + o
        · rw [List.getD_append _ _ _ _
            (by
              simp only [List.length_append, List.length_replicate, List.length_cons,
                List.length_nil]
              omega)]
          by_cases hlt1 : i < 1
          · have hi0 : i = 0 := by omega
            subst hi0
            rw [List.getD_append _ _ _ _ (by simp)]
            have hpos : 0 < 3 + o + E.length := by omega
            simp [hpos]
          · rw [getD_append_right _ _ _ _ (by simp only [List.length_cons, List.length_nil]; omega)]
            rw [getD_replicate_of_lt _ _ _ _
              (by simp only [List.length_cons, List.length_nil]; omega)]
            constructor
            · intro hcon
              exact absurd hcon hIS
            · rintro ⟨h17, _⟩
              exfalso
              omega
        · rw [getD_append_right _ _ _ _
            (by
              simp only [List.length_append, List.length_replicate, List.length_cons,
                List.length_nil]
              omega)]
          have hidx : i - ([SYNC] ++ List.replicate o IDLE).length = 0 := by
            simp only [List.length_append, List.length_replicate, List.length_cons,
              List.length_nil]
            omega
          rw [hidx, List.getD_cons_zero]
          constructor
          · intro hcon
            exact absurd hcon hAnsync
          · rintro ⟨h17, _⟩
            exfalso
            omega
      · rw [getD_append_right _ _ _ _
          (by
            simp only [List.length_append, List.length_replicate, List.length_cons,
              List.length_nil]
            omega)]
        have hplen : ([SYNC] ++ List.replicate o IDLE ++ [addrWord address]).length
            = 2 + o := by
          simp only [List.length_append, List.length_replicate, List.length_cons,
            List.length_nil]
          omega
        rw [hplen]
        have hq := e1 (i - (2 + o)) (by omega)
        have hqi : o + 2 + (i - (2 + o)) = i := by omega
        rw [hqi] at hq
        rw [hq]
        constructor
        · intro h17
          exact ⟨h17, by omega⟩
        · rintro ⟨h17, _⟩
          exact h17
    · rw [getD_append_right _ _ _ _
        (by
          simp only [List.length_append, List.length_replicate, List.length_cons,
            List.length_nil]
          omega)]
      have hidx : i - ([SYNC] ++ List.replicate o IDLE ++ [addrWord address]
          ++ E).length = 0 := by
        simp only [List.length_append, List.length_replicate, List.length_cons,
          List.length_nil]
        omega
      rw [hidx, List.getD_cons_zero]
      constructor
      · intro hcon
        exact absurd hcon hIS
      · rintro ⟨h17, _⟩
        exfalso
        have hieq : i = o + 2 + E.length := by omega
        rw [hieq] at h17
        exact e3 h17
  · rw [getD_append_right _ _ _ _
      (by
        simp only [List.length_append, List.length_replicate, List.length_cons,
          List.length_nil]
        omega)]
    rw [getD_replicate_of_lt _ _ _ _
      (by
        simp only [List.length_append, List.length_replicate, List.length_cons,
          List.length_nil]
        omega)]
    constructor
    · intro hcon
      exact absurd hcon hIS
    · rintro ⟨_, hlt⟩
      exfalso
      omega

/-- Witness for C4 (amended) at `address = 3`, message `"A"`, index 0. -/
theorem c4_witness :
    3 < 2 ^ 21 ∧ 0 < (streamWords 3 [65]).length ∧
    ((streamWords 3 [65]).getD 0 0 = SYNC ↔
      (0 % 17 = 0 ∧ 0 < 3 + addressOffset 3
          + (encodeASCII (addressOffset 3 + 1) [65]).length)) :=
  ⟨by norm_num, by decide, c4_sync_positions 3 [65] (by norm_num) 0 (by decide)⟩

/-- C5: `encodeTransmission` places exactly `(address mod 8) * 2` IDLE words
between the first SYNC and the address codeword, so the address word sits at
batch position `(address mod 8) * 2`, and it encodes
`((address >> 3) << 2) | 0b11` — the top 18 address bits with the text-data
flag — and is itself distinct from IDLE. -/
theorem c5_address_alignment (address : Nat) (message : List Nat)
    (ha : address < 2 ^ 21) :
    addressOffset address = address % 8 * 2 ∧
    (streamWords address message).getD 0 0 = SYNC ∧
    (∀ k, k < address % 8 * 2 → (streamWords address message).getD (1 + k) 0 = IDLE) ∧
    (streamWords address message).getD (1 + address % 8 * 2) 0
      = encodeCodeword (((address >>> 3) <<< 2) ||| FLAG_TEXT_DATA) ∧
    encodeCodeword (((address >>> 3) <<< 2) ||| FLAG_TEXT_DATA) ≠ IDLE := by
  have hoo := addressOffset_eq_mod address
  obtain ⟨_, _, hAnidle⟩ := addrWord_facts address ha
  refine ⟨hoo, ?_, ?_, ?_, hAnidle⟩
  · rw [streamWords_eq]
    simp only [List.append_assoc, List.singleton_append, List.cons_append,
      List.nil_append]
    rw [List.getD_cons_zero]
  · intro k hk
    rw [streamWords_eq]
    simp only [List.append_assoc, List.singleton_append, List.cons_append,
      List.nil_append]
    rw [Nat.add_comm 1 k, List.getD_cons_succ]
    rw [List.getD_append (List.replicate (addressOffset address) IDLE) _ 0 k
      (by rw [List.length_replicate]; omega)]
    exact getD_replicate_of_lt _ _ _ _ (by omega)
  · rw [streamWords_eq]
    simp only [List.append_assoc, List.singleton_append, List.cons_append,
      List.nil_append]
    rw [Nat.add_comm 1 (address % 8 * 2), List.getD_cons_succ]
    rw [getD_append_right (List.replicate (addressOffset address) IDLE) _ 0
      (address % 8 * 2) (by rw [List.length_replicate]; omega)]
    have hsub : address % 8 * 2 - (List.replicate (addressOffset address) IDLE).length
        = 0 := by
      rw [List.length_replicate]
      omega
    rw [hsub, List.getD_cons_zero]
    rfl

/-- Witness for C5 at `address = 7` (frame 7, so 14 leading IDLE words),
message `"A"`. -/
theorem c5_witness :
    7 < 2 ^ 21 ∧
    (addressOffset 7 = 7 % 8 * 2 ∧
     (streamWords 7 [65]).getD 0 0 = SYNC ∧
     (∀ k, k < 7 % 8 * 2 → (streamWords 7 [65]).getD (1 + k) 0 = IDLE) ∧
     (streamWords 7 [65]).getD (1 + 7 % 8 * 2) 0
       = encodeCodeword (((7 >>> 3) <<< 2) ||| FLAG_TEXT_DATA) ∧
     encodeCodeword (((7 >>> 3) <<< 2) ||| FLAG_TEXT_DATA) ≠ IDLE) :=
  ⟨by norm_num, c5_address_alignment 7 [65] (by norm_num)⟩

/-! ### Decoding the payload bit stream -/

theorem charOfBits_charBits {c : Nat} (hc : c < 2 ^ 7) :
    charOfBits (charBits c) = c := by
  have hr : List.range 7 = [0, 1, 2, 3, 4, 5, 6] := rfl
  simp only [charBits, TEXT_BITS_PER_CHAR, hr, List.map_cons, List.map_nil, charOfBits,
    List.foldr_cons, List.foldr_nil]
  simp only [Nat.and_one_is_mod, Nat.shiftRight_eq_div_pow]
  norm_num
  omega

theorem msgBits_drop (m : List Nat) : ∀ k, (msgBits m).drop (7 * k) = msgBits (m.drop k) := by
  induction m with
  | nil => intro k; simp [msgBits]
  | cons c t ih =>
    intro k
    cases k with
    | zero => simp
    | succ k' =>
      rw [msgBits, List.flatMap_cons, ← msgBits]
      have h7 : 7 * (k' + 1) = 7 + 7 * k' := by ring
      rw [h7, List.drop_append_eq_append_drop]
      have hd1 : (charBits c).drop (7 + 7 * k') = [] := by
        apply List.drop_eq_nil_of_le
        rw [charBits_length]
        omega
      have hd2 : 7 + 7 * k' - (charBits c).length = 7 * k' := by
        rw [charBits_length]
        omega
      rw [hd1, hd2, List.nil_append, ih k']
      rfl

theorem decodeText_msgBits (m Z : List Nat) (hm : ∀ c ∈ m, c < 2 ^ 7) :
    decodeText (msgBits m ++ Z) m.length = m := by
  apply List.ext_getElem
  · simp [decodeText]
  intro k h1 h2
  simp only [decodeText, List.getElem_map, List.getElem_range]
  rw [List.drop_append_eq_append_drop, msgBits_drop m k,
    List.drop_eq_getElem_cons h2, msgBits, List.flatMap_cons, ← msgBits,
    List.append_assoc]
  rw [List.take_left' (charBits_length _)]
  exact charOfBits_charBits (hm _ (List.getElem_mem h2))

/-! ### Non-data words filter away -/

theorem isDataWord_false_of_small {w : Nat} (h : w < 2 ^ 31) :
    isDataWord w = false := by
  simp only [isDataWord, decide_eq_false_iff_not]
  omega

theorem filter_data_replicate_idle (n : Nat) :
    (List.replicate n IDLE).filter isDataWord = [] := by
  rw [List.filter_replicate, isDataWord_false_of_small idle_small]
  simp

theorem dataPayloadBits_replicate_idle (n : Nat) :
    dataPayloadBits (List.replicate n IDLE) = [] := by
  rw [dataPayloadBits, filter_data_replicate_idle]
  rfl

/-- C6: concatenating (most-significant-first) the 20-bit payloads of the
data codewords of a transmission, in order and skipping SYNC / IDLE /
address words, yields the message's characters as consecutive 7-bit groups
in reversed (least-significant-first) bit order, followed only by zero
padding bits; a decoder reversing the bit order recovers the message, and
an empty message produces no data words at all. -/
theorem c6_payload_roundtrip (address : Nat) (message : List Nat)
    (ha : address < 2 ^ 21) (hchars : ∀ c ∈ message, 0 < c ∧ c < 2 ^ 7) :
    dataPayloadBits (streamWords address message)
        = msgBits message
          ++ List.replicate
              (20 * ((7 * message.length + 19) / 20) - 7 * message.length) 0 ∧
    decodeText (dataPayloadBits (streamWords address message)) message.length
        = message ∧
    (message = [] → (streamWords address message).filter isDataWord = []) := by
  have ho : addressOffset address ≤ 14 := addressOffset_le address
  obtain ⟨hAsmall, _, _⟩ := addrWord_facts address ha
  obtain ⟨_, _, _, e4⟩ :=
    encodeASCII_spec (addressOffset address + 1) (addressOffset address + 2)
      (by omega) (by omega) message
  have hmain : dataPayloadBits (streamWords address message)
      = msgBits message
        ++ List.replicate
            (20 * ((7 * message.length + 19) / 20) - 7 * message.length) 0 := by
    rw [streamWords_eq]
    rw [dataPayloadBits_append, dataPayloadBits_append, dataPayloadBits_append,
      dataPayloadBits_append, dataPayloadBits_append]
    rw [dataPayloadBits_skip sync_small, dataPayloadBits_replicate_idle,
      dataPayloadBits_skip hAsmall, dataPayloadBits_skip idle_small,
      dataPayloadBits_replicate_idle, e4]
    simp only [List.nil_append, List.append_nil]
    congr 1
    by_cases hz : 7 * message.length % 20 = 0
    · rw [if_pos hz]
      have hc0 : 20 * ((7 * message.length + 19) / 20) - 7 * message.length = 0 := by
        omega
      rw [hc0]
      rfl
    · rw [if_neg hz]
      congr 1
      omega
  refine ⟨hmain, ?_, ?_⟩
  · rw [hmain]
    exact decodeText_msgBits message _ (fun c hc => (hchars c hc).2)
  · intro hempty
    subst hempty
    rw [streamWords_eq]
    have hE : encodeASCII (addressOffset address + 1) [] = [] := rfl
    rw [hE]
    simp only [List.filter_append, filter_data_replicate_idle, List.filter_nil]
    have h1 : List.filter isDataWord [SYNC] = [] := by
      rw [List.filter_cons, isDataWord_false_of_small sync_small]
      simp
    have h2 : List.filter isDataWord [addrWord address] = [] := by
      rw [List.filter_cons, isDataWord_false_of_small hAsmall]
      simp
    have h3 : List.filter isDataWord [IDLE] = [] := by
      rw [List.filter_cons, isDataWord_false_of_small idle_small]
      simp
    rw [h1, h2, h3]
    simp

/-- Witness for C6 at `address = 3`, message `"Hi"`. -/
theorem c6_witness :
    3 < 2 ^ 21 ∧ (∀ c ∈ ([72, 105] : List Nat), 0 < c ∧ c < 2 ^ 7) ∧
    (dataPayloadBits (streamWords 3 [72, 105])
        = msgBits [72, 105]
          ++ List.replicate
              (20 * ((7 * ([72, 105] : List Nat).length + 19) / 20)
                - 7 * ([72, 105] : List Nat).length) 0 ∧
     decodeText (dataPayloadBits (streamWords 3 [72, 105]))
       ([72, 105] : List Nat).length = [72, 105] ∧
     (([72, 105] : List Nat) = [] → (streamWords 3 [72, 105]).filter isDataWord = [])) :=
  ⟨by norm_num, by decide, c6_payload_roundtrip 3 [72, 105] (by norm_num) (by decide)⟩

/-! ### PCM synthesis -/

theorem getD_range (n i d : Nat) (h : i < n) : (List.range n).getD i d = i := by
  rw [List.getD_eq_getElem _ _ (by simpa using h)]
  exact List.getElem_range _ _

/-- Indexing a concatenation of equal-length blocks. -/
theorem flatMap_getD_uniform {α β : Type} (B : Nat) (f : β → List α)
    (hf : ∀ x, (f x).length = B) (d : α) (b0 : β) :
    ∀ (l : List β) (k : Nat), k < l.length * B →
      (l.flatMap f).getD k d = (f (l.getD (k / B) b0)).getD (k % B) d := by
  intro l
  induction l with
  | nil =>
    intro k hk
    simp at hk
  | cons x xs ih =>
    intro k hk
    rw [List.length_cons, Nat.succ_mul] at hk
    have hB : 0 < B := by
      rcases Nat.eq_zero_or_pos B with h0 | h0
      · subst h0
        omega
      · exact h0
    rw [List.flatMap_cons]
    by_cases hkB : k < B
    · rw [List.getD_append _ _ _ _ (by rw [hf]; exact hkB)]
      rw [Nat.div_eq_of_lt hkB, Nat.mod_eq_of_lt hkB, List.getD_cons_zero]
    · rw [getD_append_right _ _ _ _ (by rw [hf]; omega)]
      rw [hf]
      have hq : k / B = (k - B) / B + 1 := Nat.div_eq_sub_div hB (by omega)
      have hm : k % B = (k - B) % B := Nat.mod_eq_sub_mod (by omega)
      rw [hq, hm, List.getD_cons_succ]
      exact ih (k - B) (by omega)

theorem wordSamples_length (repeatsPerBit val : Nat) :
    (wordSamples repeatsPerBit val).length = 32 * repeatsPerBit := by
  rw [wordSamples, List.length_flatMap]
  have hconst : List.map
      (List.length ∘ fun bitNum =>
        List.replicate repeatsPerBit (sampleLevel ((val >>> (31 - bitNum)) &&& 1)))
      (List.range 32) = List.replicate 32 repeatsPerBit := by
    have hmap : ∀ x ∈ List.range 32,
        (List.length ∘ fun bitNum =>
          List.replicate repeatsPerBit (sampleLevel ((val >>> (31 - bitNum)) &&& 1))) x
        = repeatsPerBit := by
      intro x _
      simp
    rw [List.map_congr_left hmap, List.map_const']
    simp
  rw [hconst, List.sum_replicate]
  simp [Nat.mul_comm]

theorem transmissionSamples_length (transmission : List Nat) (repeatsPerBit : Nat) :
    (transmissionSamples transmission repeatsPerBit).length
      = transmission.length * 32 * repeatsPerBit := by
  rw [transmissionSamples, List.length_flatMap]
  have hconst : List.map (List.length ∘ wordSamples repeatsPerBit) transmission
      = List.replicate transmission.length (32 * repeatsPerBit) := by
    have hmap : ∀ x ∈ transmission,
        (List.length ∘ wordSamples repeatsPerBit) x = 32 * repeatsPerBit := by
      intro x _
      simp [wordSamples_length]
    rw [List.map_congr_left hmap, List.map_const']
  rw [hconst, List.sum_replicate]
  simp [Nat.mul_assoc]

theorem sampleBytes_length (s : Int) : (sampleBytes s).length = 2 := rfl

theorem pcmEncodeTransmission_length (sampleRate baudRate : Nat)
    (transmission : List Nat) :
    (pcmEncodeTransmission sampleRate baudRate transmission).length
      = pcmTransmissionLength sampleRate baudRate transmission.length := by
  simp only [pcmEncodeTransmission]
  rw [List.length_flatMap]
  have hconst : List.map
      (List.length ∘ fun j =>
        sampleBytes ((transmissionSamples transmission (SYMRATE / baudRate)).getD
          (j * SYMRATE / sampleRate) 0))
      (List.range
        (pcmTransmissionLength sampleRate baudRate transmission.length / 2))
      = List.replicate
          (pcmTransmissionLength sampleRate baudRate transmission.length / 2) 2 := by
    have hmap : ∀ x ∈ List.range
        (pcmTransmissionLength sampleRate baudRate transmission.length / 2),
        (List.length ∘ fun j =>
          sampleBytes ((transmissionSamples transmission (SYMRATE / baudRate)).getD
            (j * SYMRATE / sampleRate) 0)) x = 2 := by
      intro x _
      rfl
    rw [List.map_congr_left hmap, List.map_const']
    simp
  rw [hconst, List.sum_replicate]
  have heven : pcmTransmissionLength sampleRate baudRate transmission.length
      = transmission.length * 32 * sampleRate / baudRate * 2 := rfl
  simp only [smul_eq_mul]
  omega

/-- The intermediate buffer holds, at index `idx`, the level of bit
`(idx / repeatsPerBit) % 32` (most-significant first) of codeword number
`idx / repeatsPerBit / 32`. -/
theorem transmissionSamples_getD (transmission : List Nat) (repeatsPerBit idx : Nat)
    (h : idx < transmission.length * (32 * repeatsPerBit)) :
    (transmissionSamples transmission repeatsPerBit).getD idx 0 =
      sampleLevel ((transmission.getD (idx / repeatsPerBit / 32) 0
        >>> (31 - (idx / repeatsPerBit) % 32)) &&& 1) := by
  have hrpb : 0 < repeatsPerBit := by
    rcases Nat.eq_zero_or_pos repeatsPerBit with h0 | h0
    · subst h0
      simp at h
    · exact h0
  rw [transmissionSamples,
    flatMap_getD_uniform (32 * repeatsPerBit) _
      (fun x => wordSamples_length repeatsPerBit x) 0 0 transmission idx h]
  rw [wordSamples,
    flatMap_getD_uniform repeatsPerBit _
      (fun x => List.length_replicate _ _) 0 0 (List.range 32) (idx % (32 * repeatsPerBit))
      (by
        rw [List.length_range]
        exact Nat.mod_lt _ (by positivity))]
  rw [getD_replicate_of_lt _ _ _ _ (Nat.mod_lt _ hrpb)]
  have hw : idx / (32 * repeatsPerBit) = idx / repeatsPerBit / 32 := by
    rw [Nat.div_div_eq_div_mul, Nat.mul_comm]
  have hbit : idx % (32 * repeatsPerBit) / repeatsPerBit = idx / repeatsPerBit % 32 := by
    rw [Nat.mul_comm 32 repeatsPerBit]
    exact Nat.mod_mul_right_div_self _ _ _
  rw [hw, hbit, getD_range _ _ _ (Nat.mod_lt _ (by norm_num))]

/-- C7: the PCM length formula is
`transmissionLength * 32 * sampleRate / baudRate * 2` (left-to-right,
flooring division), and `pcmEncodeTransmission` writes exactly that many
bytes. -/
theorem c7_pcm_length (sampleRate baudRate : Nat) (hsr : 0 < sampleRate)
    (hbr : 0 < baudRate) (transmission : List Nat) :
    pcmTransmissionLength sampleRate baudRate transmission.length
        = transmission.length * 32 * sampleRate / baudRate * 2 ∧
    (pcmEncodeTransmission sampleRate baudRate transmission).length
        = pcmTransmissionLength sampleRate baudRate transmission.length :=
  ⟨rfl, pcmEncodeTransmission_length sampleRate baudRate transmission⟩

/-- Witness for C7 at the reference rates, one-word transmission. -/
theorem c7_witness :
    0 < 22050 ∧ 0 < 512 ∧
    (pcmTransmissionLength 22050 512 (([0] : List Nat)).length
        = ([0] : List Nat).length * 32 * 22050 / 512 * 2 ∧
     (pcmEncodeTransmission 22050 512 [0]).length
        = pcmTransmissionLength 22050 512 (([0] : List Nat)).length) :=
  ⟨by norm_num, by norm_num, c7_pcm_length 22050 512 (by norm_num) (by norm_num) [0]⟩

/-- C8: output sample `i` (bytes `2i`, `2i+1`, little-endian 16-bit) equals
intermediate sample `floor(i * 38400 / sampleRate)`, where the intermediate
waveform repeats each codeword bit (most-significant first)
`floor(38400 / baudRate)` times with level `+16383` for a 0 bit and
`-16383` for a 1 bit. -/
theorem c8_resampling (sampleRate baudRate : Nat) (transmission : List Nat) (i : Nat)
    (hi : i < pcmTransmissionLength sampleRate baudRate transmission.length / 2)
    (hin : i * SYMRATE / sampleRate
        < transmission.length * (32 * (SYMRATE / baudRate))) :
    (pcmEncodeTransmission sampleRate baudRate transmission).getD (2 * i) 0
        = toU16 ((transmissionSamples transmission (SYMRATE / baudRate)).getD
            (i * SYMRATE / sampleRate) 0) % 256 ∧
    (pcmEncodeTransmission sampleRate baudRate transmission).getD (2 * i + 1) 0
        = toU16 ((transmissionSamples transmission (SYMRATE / baudRate)).getD
            (i * SYMRATE / sampleRate) 0) / 256 % 256 ∧
    (transmissionSamples transmission (SYMRATE / baudRate)).getD
        (i * SYMRATE / sampleRate) 0
      = (if ((transmission.getD
              (i * SYMRATE / sampleRate / (SYMRATE / baudRate) / 32) 0
            >>> (31 - (i * SYMRATE / sampleRate / (SYMRATE / baudRate)) % 32)) &&& 1) = 0
         then (16383 : Int) else -16383) := by
  have hblock : ∀ x : Nat, (sampleBytes
      ((transmissionSamples transmission (SYMRATE / baudRate)).getD
        (x * SYMRATE / sampleRate) 0)).length = 2 := fun x => rfl
  have hlt : 2 * i < (List.range
      (pcmTransmissionLength sampleRate baudRate transmission.length / 2)).length * 2 := by
    rw [List.length_range]
    omega
  have hlt1 : 2 * i + 1 < (List.range
      (pcmTransmissionLength sampleRate baudRate transmission.length / 2)).length * 2 := by
    rw [List.length_range]
    omega
  refine ⟨?_, ?_, ?_⟩
  · simp only [pcmEncodeTransmission]
    rw [flatMap_getD_uniform 2 _ hblock 0 0 _ (2 * i) hlt]
    have hd : 2 * i / 2 = i := by omega
    have hm : 2 * i % 2 = 0 := by omega
    rw [hd, hm, getD_range _ _ _ hi]
    rfl
  · simp only [pcmEncodeTransmission]
    rw [flatMap_getD_uniform 2 _ hblock 0 0 _ (2 * i + 1) hlt1]
    have hd : (2 * i + 1) / 2 = i := by omega
    have hm : (2 * i + 1) % 2 = 1 := by omega
    rw [hd, hm, getD_range _ _ _ hi]
    rfl
  · rw [transmissionSamples_getD transmission (SYMRATE / baudRate) _ hin]
    rfl

/-- Witness for C8 at `sampleRate = baudRate = 38400` (1:1), transmission
`[0]`, output sample 0. -/
theorem c8_witness :
    0 < pcmTransmissionLength 38400 38400 (([0] : List Nat)).length / 2 ∧
    0 * SYMRATE / 38400 < ([0] : List Nat).length * (32 * (SYMRATE / 38400)) ∧
    ((pcmEncodeTransmission 38400 38400 [0]).getD (2 * 0) 0
        = toU16 ((transmissionSamples [0] (SYMRATE / 38400)).getD
            (0 * SYMRATE / 38400) 0) % 256 ∧
     (pcmEncodeTransmission 38400 38400 [0]).getD (2 * 0 + 1) 0
        = toU16 ((transmissionSamples [0] (SYMRATE / 38400)).getD
            (0 * SYMRATE / 38400) 0) / 256 % 256 ∧
     (transmissionSamples [0] (SYMRATE / 38400)).getD (0 * SYMRATE / 38400) 0
        = (if ((([0] : List Nat).getD
                (0 * SYMRATE / 38400 / (SYMRATE / 38400) / 32) 0
              >>> (31 - (0 * SYMRATE / 38400 / (SYMRATE / 38400)) % 32)) &&& 1) = 0
           then (16383 : Int) else -16383)) :=
  ⟨by decide, by decide, c8_resampling 38400 38400 [0] 0 (by decide) (by decide)⟩

/-- Counterexample to C9 as stated: at `sampleRate = 38400`,
`baudRate = 7` (which does not divide 38400) and a one-word transmission,
output sample 175541 exists but reads intermediate index 175541, beyond the
175520 samples the intermediate buffer holds. -/
theorem c9_counterexample :
    175541 < pcmTransmissionLength 38400 7 (([0] : List Nat)).length / 2 ∧
    ¬ (175541 * SYMRATE / 38400
        < (transmissionSamples [0] (SYMRATE / 7)).length) := by
  have hlen : (transmissionSamples [0] (SYMRATE / 7)).length
      = ([0] : List Nat).length * 32 * (SYMRATE / 7) :=
    transmissionSamples_length [0] (SYMRATE / 7)
  constructor
  · show 175541 < pcmTransmissionLength 38400 7 1 / 2
    norm_num [pcmTransmissionLength]
  · rw [hlen]
    norm_num [SYMRATE]

/-- C9 (amended): when the baud rate divides the internal symbol rate 38400
(as the reference rates 512, 1200, 2400 do), every intermediate-buffer index
the resampling loop reads is below the
`transmissionLength * 32 * (38400 / baudRate)` samples the buffer holds. -/
theorem c9_index_bound (sampleRate baudRate : Nat) (hsr : 0 < sampleRate)
    (hdvd : baudRate ∣ SYMRATE) (transmission : List Nat) (j : Nat)
    (hj : j < pcmTransmissionLength sampleRate baudRate transmission.length / 2) :
    j * SYMRATE / sampleRate
      < (transmissionSamples transmission (SYMRATE / baudRate)).length := by
  have hbr : 0 < baudRate := by
    rcases Nat.eq_zero_or_pos baudRate with h0 | h0
    · exfalso
      subst h0
      exact absurd (Nat.eq_zero_of_zero_dvd hdvd) (by decide)
    · exact h0
  obtain ⟨R, hR⟩ := hdvd
  have hR0 : 0 < R := by
    rcases Nat.eq_zero_or_pos R with h0 | h0
    · exfalso
      rw [h0, Nat.mul_zero] at hR
      exact absurd hR (by decide)
    · exact h0
  have hRrpb : SYMRATE / baudRate = R := by
    rw [hR]
    exact Nat.mul_div_cancel_left R hbr
  rw [transmissionSamples_length, hRrpb]
  have hj' : j < transmission.length * 32 * sampleRate / baudRate := by
    rw [pcmTransmissionLength] at hj
    omega
  have hjb : j * baudRate < transmission.length * 32 * sampleRate := by
    have h1 : j + 1 ≤ transmission.length * 32 * sampleRate / baudRate := hj'
    have h2 := (Nat.le_div_iff_mul_le hbr).mp h1
    rw [Nat.succ_mul] at h2
    omega
  rw [Nat.div_lt_iff_lt_mul hsr]
  calc j * SYMRATE = j * (baudRate * R) := by rw [hR]
    _ = j * baudRate * R := by ring
    _ < transmission.length * 32 * sampleRate * R :=
        mul_lt_mul_of_pos_right hjb hR0
    _ = transmission.length * 32 * R * sampleRate := by ring

/-- Witness for C9 (amended) at the reference rates (512 divides 38400),
transmission `[0]`, output sample 0. -/
theorem c9_witness :
    0 < 22050 ∧ (512 : Nat) ∣ SYMRATE ∧
    0 < pcmTransmissionLength 22050 512 (([0] : List Nat)).length / 2 ∧
    0 * SYMRATE / 22050 < (transmissionSamples [0] (SYMRATE / 512)).length :=
  ⟨by norm_num, by decide, by decide,
    c9_index_bound 22050 512 (by norm_num) (by decide) [0] 0 (by decide)⟩

end Pocsag
